import Mathlib

/-!
# Load balancer: routing and failover core

A shallow embedding of the routing core of the load balancer
(`cmd/backend.go`, `cmd/pool.go` and the handler `lb` with the proxy
`ErrorHandler` of `main.go`), followed by theorems about it.

Modelling conventions.

* A `*Backend` is identified with its position in `ServerPool.backends`;
  a selection returns that position, and writes through the pointer become
  updates of the list at that position.
* `ServerPool.current` is a `uint64`: it is a natural number and the
  atomic increment wraps at `2 ^ 64`.
* `Backend.Latency` (`int64`) and `Backend.Connections` (`int`) are integers
  that the code only stores and compares.  The tracked connection count is a
  Go `int` that `IncreaseConnection` increments, wrapping at `2 ^ 63`.  The
  counters carried by the request context are incremented only by the
  `ErrorHandler`, the retries below 3 and the attempts of a request that `lb`
  dispatched, hence at most 3, where the increment does not wrap.
* `Backend.Weight` is a `float64`.  The code only compares weights, so a
  weight is one of NaN, minus infinity, a finite value (a rational) or plus
  infinity, with the IEEE 754 comparison.
* The locks are not modelled: every operation is taken as one serial step.
* A Go run-time panic (integer division by zero, index out of range, nil
  dereference) is an explicit result.
-/

namespace LoadBalancer

/-! ## `cmd/backend.go` -/

/-- A `float64` value, as far as comparisons can tell. -/
inductive F64 where
  | nan
  | negInf
  | finite (q : ℚ)
  | posInf
  deriving DecidableEq

/-- The Go comparison `a > b` on `float64`: false as soon as one side is NaN. -/
def F64.gt : F64 → F64 → Bool
  | .nan, _ => false
  | _, .nan => false
  | .negInf, _ => false
  | .finite _, .negInf => true
  | .finite a, .finite b => decide (b < a)
  | .finite _, .posInf => false
  | .posInf, .posInf => false
  | .posInf, _ => true

/-- The Go comparison `a <= b` on `float64`: false as soon as one side is NaN. -/
def F64.le : F64 → F64 → Bool
  | .nan, _ => false
  | _, .nan => false
  | .negInf, _ => true
  | .finite _, .negInf => false
  | .finite a, .finite b => decide (a ≤ b)
  | .finite _, .posInf => true
  | .posInf, .posInf => true
  | .posInf, _ => false

/-- A weight is non-negative: a finite value that is at least zero, or plus infinity. -/
def F64.nonneg : F64 → Bool
  | .finite q => decide (0 ≤ q)
  | .posInf => true
  | _ => false

/-- The fields of `Backend` that the routing core reads or writes
(`mux` is the lock, `ReverseProxy` the forwarding capability). -/
structure Backend where
  URL : String
  Alive : Bool
  Latency : Int
  Weight : F64
  Connections : Int
  deriving DecidableEq

/-- `Backend.SetAlive`. -/
def Backend.SetAlive (b : Backend) (alive : Bool) : Backend :=
  { b with Alive := alive }

/-- `Backend.IsActive`. -/
def Backend.IsActive (b : Backend) : Bool :=
  b.Alive

/-- `Backend.SetLatency`: the sample is stored only while the backend is marked alive. -/
def Backend.SetLatency (b : Backend) (latency : Int) : Backend :=
  if b.Alive then { b with Latency := latency } else b

/-- `getBackendStatus`: the TCP dial either fails (`none`) or succeeds after
`duration` microseconds. -/
def getBackendStatus (dial : Option Int) : Bool × Int :=
  match dial with
  | none => (false, 0)
  | some duration => (true, duration)

/-- The values a request context carries under the keys `Attempts` and `Retry`. -/
structure Context where
  attempts : Option Int
  retry : Option Int
  deriving DecidableEq

/-- `GetAttemptsFromContext`. -/
def GetAttemptsFromContext (r : Context) : Int :=
  match r.attempts with
  | some attempts => attempts
  | none => 1

/-- `GetRetryFromContext`. -/
def GetRetryFromContext (r : Context) : Int :=
  match r.retry with
  | some retry => retry
  | none => 0

/-! ## `cmd/pool.go` -/

/-- `ServerPool`: the ordered backends and the `uint64` rotation cursor. -/
structure ServerPool where
  backends : List Backend
  current : Nat
  deriving DecidableEq

/-- The result of a selection: a Go panic, the nil pointer, or the backend at a position. -/
inductive Selection where
  | panic
  | null
  | peer (idx : Nat)
  deriving DecidableEq

/-- The write `s.backends[idx].f()` for a pointer method `f` that updates the backend. -/
def ServerPool.update (s : ServerPool) (idx : Nat) (f : Backend → Backend) : ServerPool :=
  match s.backends[idx]? with
  | some b => { s with backends := s.backends.set idx (f b) }
  | none => s

/-- The health flag of the backend at a position (false outside the pool). -/
def ServerPool.aliveAt (s : ServerPool) (idx : Nat) : Bool :=
  match s.backends[idx]? with
  | some b => b.IsActive
  | none => false

/-- `ServerPool.AddBackend`. -/
def ServerPool.AddBackend (s : ServerPool) (backend : Backend) : ServerPool :=
  { s with backends := s.backends ++ [backend] }

/-- `ServerPool.NextIndex`: the cursor is advanced (wrapping at `2 ^ 64`) and
reduced modulo the number of backends; with no backend the division panics
after the cursor was advanced. -/
def ServerPool.NextIndex (s : ServerPool) : Option Nat × ServerPool :=
  let cur := (s.current + 1) % 2 ^ 64
  let s1 := { s with current := cur }
  if s.backends.length = 0 then (none, s1) else (some (cur % s.backends.length), s1)

/-- The loop of `MarkBackendStatus`: the first backend with the URL gets the flag. -/
def markFirst (url : String) (alive : Bool) : List Backend → List Backend
  | [] => []
  | server :: rest =>
    if server.URL = url then server.SetAlive alive :: rest
    else server :: markFirst url alive rest

/-- `ServerPool.MarkBackendStatus`. -/
def ServerPool.MarkBackendStatus (s : ServerPool) (backendUrl : String) (alive : Bool) :
    ServerPool :=
  { s with backends := markFirst backendUrl alive s.backends }

/-- One iteration of the loop of `HealthCheck` on one backend:
`SetAlive(alive)` followed by `SetLatency(latency)`. -/
def healthCheckStep (server : Backend) (status : Bool × Int) : Backend :=
  (server.SetAlive status.1).SetLatency status.2

/-- The loop of `HealthCheck`; `dials` holds the outcome of the dial to each
backend in order (a missing outcome counts as a failed dial). -/
def healthCheckLoop : List Backend → List (Option Int) → List Backend
  | [], _ => []
  | server :: rest, [] => healthCheckStep server (getBackendStatus none) :: healthCheckLoop rest []
  | server :: rest, dial :: dials =>
    healthCheckStep server (getBackendStatus dial) :: healthCheckLoop rest dials

/-- `ServerPool.HealthCheck`. -/
def ServerPool.HealthCheck (s : ServerPool) (dials : List (Option Int)) : ServerPool :=
  { s with backends := healthCheckLoop s.backends dials }

/-- The loop of `GetNextPeer`, with `fuel = l - i` iterations left: the first
active backend at `i % len` is returned and, when `i` is not the starting
position, the cursor is stored as that index (an `int` below `len`, which the
conversion to `uint64` keeps). -/
def scanPeers (s : ServerPool) (next : Nat) : Nat → Nat → Selection × ServerPool
  | 0, _ => (Selection.null, s)
  | fuel + 1, i =>
    let idx := i % s.backends.length
    match s.backends[idx]? with
    | none => (Selection.panic, s)
    | some b =>
      if b.IsActive then
        (Selection.peer idx, if i ≠ next then { s with current := idx } else s)
      else scanPeers s next fuel (i + 1)

/-- `ServerPool.GetNextPeer`. -/
def ServerPool.GetNextPeer (s : ServerPool) : Selection × ServerPool :=
  match s.NextIndex with
  | (none, s1) => (Selection.panic, s1)
  | (some next, s1) => scanPeers s1 next s1.backends.length next

/-- The loop of `GetLowestLatency` over `s.backends[1:]`: `j` is the position of
the next backend, `best` the position of `lowestServer` and `lat` its latency. -/
def lowestLoop : List Backend → Nat → Nat → Int → Nat
  | [], _, best, _ => best
  | server :: rest, j, best, lat =>
    if server.Latency < lat then lowestLoop rest (j + 1) j server.Latency
    else lowestLoop rest (j + 1) best lat

/-- `ServerPool.GetLowestLatency`; `s.backends[0]` panics on an empty pool. -/
def ServerPool.GetLowestLatency (s : ServerPool) : Selection :=
  match s.backends with
  | [] => Selection.panic
  | first :: rest => Selection.peer (lowestLoop rest 1 0 first.Latency)

/-- The loop of `GetHighestWeight` over `s.backends[1:]`: `j` is the position of
the next backend, `best` the position of `highestWeight` and `w` its weight. -/
def highestLoop : List Backend → Nat → Nat → F64 → Nat
  | [], _, best, _ => best
  | server :: rest, j, best, w =>
    if server.Weight.gt w then highestLoop rest (j + 1) j server.Weight
    else highestLoop rest (j + 1) best w

/-- `ServerPool.GetHighestWeight`; `s.backends[0]` panics on an empty pool. -/
def ServerPool.GetHighestWeight (s : ServerPool) : Selection :=
  match s.backends with
  | [] => Selection.panic
  | first :: rest => Selection.peer (highestLoop rest 1 0 first.Weight)

/-! ## `main.go` -/

/-- `InternalConnections`: the map from a backend URL to its tracked count,
as a list of entries with distinct keys. -/
structure InternalConnections where
  connections : List (String × Int)
  deriving DecidableEq

/-- A map read `m[key]`: the zero value when the key is absent. -/
def mapGet : List (String × Int) → String → Int
  | [], _ => 0
  | (k, v) :: rest, key => if k = key then v else mapGet rest key

/-- A map write `m[key] = value`. -/
def mapPut : List (String × Int) → String → Int → List (String × Int)
  | [], key, value => [(key, value)]
  | (k, v) :: rest, key, value =>
    if k = key then (k, value) :: rest else (k, v) :: mapPut rest key value

/-- The map read `i.connections[key]`. -/
def InternalConnections.count (i : InternalConnections) (key : String) : Int :=
  mapGet i.connections key

/-- The value of a Go `int` (64 bits) after an arithmetic result `x`: it wraps
into the range from `-2 ^ 63` to `2 ^ 63 - 1`. -/
def wrapInt (x : Int) : Int :=
  (x + 2 ^ 63) % 2 ^ 64 - 2 ^ 63

/-- `InternalConnections.IncreaseConnection`: `i.connections[key] += 1` on a Go `int`. -/
def InternalConnections.IncreaseConnection (i : InternalConnections) (key : String) :
    InternalConnections :=
  { connections := mapPut i.connections key (wrapInt (mapGet i.connections key + 1)) }

/-- The loop of `InitConnections`: every backend is set alive and its URL is
entered with count zero. -/
def initLoop : List Backend → List (String × Int) → List Backend × List (String × Int)
  | [], connections => ([], connections)
  | server :: rest, connections =>
    let r := initLoop rest (mapPut connections server.URL 0)
    ({ server with Alive := true } :: r.1, r.2)

/-- `ServerPool.InitConnections`: the fresh map and the pool after the loop. -/
def ServerPool.InitConnections (s : ServerPool) : InternalConnections × ServerPool :=
  let r := initLoop s.backends []
  ({ connections := r.2 }, { s with backends := r.1 })

/-- The global variables `serverPool` and `internalConnections`. -/
structure State where
  serverPool : ServerPool
  internalConnections : InternalConnections
  deriving DecidableEq

/-- The body of `resetConnections` at one tick. -/
def resetConnections (st : State) : State :=
  let r := st.serverPool.InitConnections
  { serverPool := r.2, internalConnections := r.1 }

/-- The selection policy that the `switch algorithm` of `lb` dispatches on. -/
inductive Policy where
  | leastTime
  | weightedRoundRobin
  | connectionPerTime
  | roundRobin
  deriving DecidableEq

/-- The cases of `switch algorithm`: every other string is the default case. -/
def policyOf (algorithm : String) : Policy :=
  if algorithm = "least-time" then Policy.leastTime
  else if algorithm = "weighted-round-robin" then Policy.weightedRoundRobin
  else if algorithm = "connection-per-time" then Policy.connectionPerTime
  else Policy.roundRobin

/-- How one call of `lb` ends. -/
inductive Outcome where
  /-- `http.Error(w, "Service not available", http.StatusServiceUnavailable)`. -/
  | rejected
  /-- The tracked count exceeds the limit: `peer.SetAlive(false)` and return. -/
  | abandoned (idx : Nat)
  /-- `peer.ReverseProxy.ServeHTTP(w, r)` is called. -/
  | forwarded (idx : Nat)
  /-- A Go run-time panic. -/
  | panicked
  deriving DecidableEq

/-- The admission check and dispatch of `lb` for a non-nil `peer`
(lines 73 to 87). -/
def admission (st : State) (idx : Nat) : Outcome × State :=
  match st.serverPool.backends[idx]? with
  | none => (Outcome.panicked, st)
  | some peer =>
    if st.internalConnections.count peer.URL > peer.Connections then
      (Outcome.abandoned idx,
        { st with serverPool := st.serverPool.update idx (fun b => b.SetAlive false) })
    else (Outcome.forwarded idx, st)

/-- The `switch algorithm` of `lb`: the selected peer and the state after the
selection.  Under connection-per-time `peer.URL` is read before the nil check,
which panics on a nil peer. -/
def selectPeer (policy : Policy) (st : State) : Selection × State :=
  match policy with
  | Policy.leastTime => (st.serverPool.GetLowestLatency, st)
  | Policy.weightedRoundRobin => (st.serverPool.GetHighestWeight, st)
  | Policy.connectionPerTime =>
    let r := st.serverPool.GetNextPeer
    match r.1 with
    | Selection.peer idx =>
      match r.2.backends[idx]? with
      | some peer =>
        (Selection.peer idx,
          { serverPool := r.2,
            internalConnections := st.internalConnections.IncreaseConnection peer.URL })
      | none => (Selection.panic, { st with serverPool := r.2 })
    | _ => (Selection.panic, { st with serverPool := r.2 })
  | Policy.roundRobin =>
    let r := st.serverPool.GetNextPeer
    (r.1, { st with serverPool := r.2 })

/-- The handler `lb` from the attempts check on (the strict-mode address
filter before it is outside the routing core). -/
def lb (algorithm : String) (r : Context) (st : State) : Outcome × State :=
  let attempts := GetAttemptsFromContext r
  if attempts > 3 then (Outcome.rejected, st)
  else
    match selectPeer (policyOf algorithm) st with
    | (Selection.panic, st1) => (Outcome.panicked, st1)
    | (Selection.null, st1) => (Outcome.rejected, st1)
    | (Selection.peer idx, st1) => admission st1 idx

/-- What a request does that is visible from outside, in order. -/
inductive Event where
  /-- `ReverseProxy.ServeHTTP` of the backend at `idx` is called with a request
  whose context carries these attempts and retries. -/
  | dispatched (idx : Nat) (attempts retries : Int)
  /-- A service-unavailable response is written. -/
  | rejected
  /-- The backend at `idx` is over its connection limit and `lb` returns. -/
  | abandoned (idx : Nat)
  /-- A Go run-time panic unwinds the handler. -/
  | panicked
  deriving DecidableEq

/-- A call on the stack of a request whose every forward fails. -/
inductive Call where
  /-- `lb(w, r)`. -/
  | lb (r : Context)
  /-- The `ErrorHandler` closure of the backend at `idx`, called with `r`. -/
  | errorHandler (idx : Nat) (r : Context)
  deriving DecidableEq

/-- The state, the events so far and whether a panic is unwinding. -/
structure Run where
  state : State
  trace : List Event
  crashed : Bool
  deriving DecidableEq

/-- The URL captured by the `ErrorHandler` closure of the backend at `idx`. -/
def urlAt (s : ServerPool) (idx : Nat) : String :=
  match s.backends[idx]? with
  | some b => b.URL
  | none => ""

/-- The attempt and retry state machine when every forward fails: `lb` and
the `ErrorHandler` closures call each other; `fuel` bounds the call depth
(`none` when it runs out).  A failing `ServeHTTP` of backend `idx` with
request `r` is the event `dispatched` followed by the call
`errorHandler idx r`. -/
def failingRun (algorithm : String) : Nat → Call → State → Option Run
  | 0, _, _ => none
  | fuel + 1, Call.lb r, st =>
    match lb algorithm r st with
    | (Outcome.rejected, st1) => some { state := st1, trace := [Event.rejected], crashed := false }
    | (Outcome.abandoned idx, st1) =>
      some { state := st1, trace := [Event.abandoned idx], crashed := false }
    | (Outcome.panicked, st1) => some { state := st1, trace := [Event.panicked], crashed := true }
    | (Outcome.forwarded idx, st1) =>
      match failingRun algorithm fuel (Call.errorHandler idx r) st1 with
      | none => none
      | some run =>
        some { run with
          trace := Event.dispatched idx (GetAttemptsFromContext r) (GetRetryFromContext r)
            :: run.trace }
  | fuel + 1, Call.errorHandler idx r, st =>
    let retries := GetRetryFromContext r
    let again : Option Run :=
      if retries < 3 then
        let ctx : Context := { r with retry := some (retries + 1) }
        match failingRun algorithm fuel (Call.errorHandler idx ctx) st with
        | none => none
        | some run =>
          some { run with
            trace := Event.dispatched idx (GetAttemptsFromContext ctx) (GetRetryFromContext ctx)
              :: run.trace }
      else some { state := st, trace := [], crashed := false }
    match again with
    | none => none
    | some run1 =>
      if run1.crashed then some run1
      else
        let st2 : State :=
          { run1.state with
            serverPool :=
              run1.state.serverPool.MarkBackendStatus (urlAt run1.state.serverPool idx) false }
        let attempts := GetAttemptsFromContext r
        let ctx : Context := { r with attempts := some (attempts + 1) }
        match failingRun algorithm fuel (Call.lb ctx) st2 with
        | none => none
        | some run2 => some { run2 with trace := run1.trace ++ run2.trace }

/-- The attempts carried by the request of a call. -/
def Call.attempts : Call → Int
  | Call.lb r => GetAttemptsFromContext r
  | Call.errorHandler _ r => GetAttemptsFromContext r

/-- The retries carried by the request of a call. -/
def Call.retries : Call → Int
  | Call.lb r => GetRetryFromContext r
  | Call.errorHandler _ r => GetRetryFromContext r

/-- A bound on the call depth below a call of the failing run: two levels for
each attempt left below the ceiling and one for each retry left. -/
def Call.depth : Call → Nat
  | Call.lb r => 2 * (4 - GetAttemptsFromContext r).toNat + (3 - GetRetryFromContext r).toNat + 1
  | Call.errorHandler _ r =>
    2 * (4 - GetAttemptsFromContext r).toNat + (3 - GetRetryFromContext r).toNat

/-- The request ended in the run: a rejection was written, the request was
abandoned on a backend over its limit, or the handler panicked. -/
def Run.ended (run : Run) : Prop :=
  Event.rejected ∈ run.trace ∨ (∃ idx, Event.abandoned idx ∈ run.trace) ∨
    Event.panicked ∈ run.trace

/-- The number of backends marked healthy. -/
def healthyCount (s : ServerPool) : Nat :=
  s.backends.countP Backend.IsActive

/-- No backend is over its connection limit and, under connection-per-time,
the tracked count of every backend is non-negative and leaves room for `n`
more connections below a limit that is a Go `int`. -/
def Room (policy : Policy) (n : Int) (st : State) : Prop :=
  ∀ b : Backend, b ∈ st.serverPool.backends →
    st.internalConnections.count b.URL ≤ b.Connections ∧
    (policy = Policy.connectionPerTime →
      0 ≤ st.internalConnections.count b.URL ∧
      st.internalConnections.count b.URL + n ≤ b.Connections ∧ b.Connections < 2 ^ 63)

/-- The context of a request that enters the load balancer. -/
def freshContext : Context :=
  { attempts := none, retry := none }

/-- The operations of the core that touch the pool. -/
inductive CoreOp where
  | initConnections
  | healthCheck (dials : List (Option Int))
  | markBackendStatus (url : String) (alive : Bool)
  | setLatency (idx : Nat) (latency : Int)
  | getNextPeer
  | getLowestLatency
  | getHighestWeight
  | lb (algorithm : String) (r : Context)
  deriving DecidableEq

/-- The state after one operation of the core. -/
def CoreOp.apply (op : CoreOp) (st : State) : State :=
  match op with
  | CoreOp.initConnections => resetConnections st
  | CoreOp.healthCheck dials => { st with serverPool := st.serverPool.HealthCheck dials }
  | CoreOp.markBackendStatus url alive =>
    { st with serverPool := st.serverPool.MarkBackendStatus url alive }
  | CoreOp.setLatency idx latency =>
    { st with serverPool := st.serverPool.update idx (fun b => b.SetLatency latency) }
  | CoreOp.getNextPeer => { st with serverPool := st.serverPool.GetNextPeer.2 }
  | CoreOp.getLowestLatency => st
  | CoreOp.getHighestWeight => st
  | CoreOp.lb algorithm r => (LoadBalancer.lb algorithm r st).2

/-- The operations other than the health check and the connection-count reset,
with `MarkBackendStatus` as the `ErrorHandler` calls it (with `false`). -/
def CoreOp.isOther : CoreOp → Bool
  | CoreOp.initConnections => false
  | CoreOp.healthCheck _ => false
  | CoreOp.markBackendStatus _ alive => !alive
  | _ => true

/-- What happens between two resets under a policy: a request enters `lb`, a
forward to a backend fails for good (`MarkBackendStatus(url, false)`), or a
health check runs. -/
inductive Step where
  | request (r : Context)
  | forwardFailed (url : String)
  | healthCheck (dials : List (Option Int))
  deriving DecidableEq

/-- One step: the outcome of `lb` when the step is a request, and the state after. -/
def Step.apply (algorithm : String) (step : Step) (st : State) : Option Outcome × State :=
  match step with
  | Step.request r => let res := lb algorithm r st; (some res.1, res.2)
  | Step.forwardFailed url =>
    (none, { st with serverPool := st.serverPool.MarkBackendStatus url false })
  | Step.healthCheck dials => (none, { st with serverPool := st.serverPool.HealthCheck dials })

/-- The outcome and the state after each step of a serial run. -/
def runSteps (algorithm : String) : List Step → State → List (Option Outcome × State)
  | [], _ => []
  | step :: rest, st =>
    let res := step.apply algorithm st
    res :: runSteps algorithm rest res.2

/-- The call of `lb` selected the backend at `idx`: it forwarded to it or
abandoned the request on it. -/
def selects (idx : Nat) (res : Option Outcome × State) : Bool :=
  res.1 = some (Outcome.forwarded idx) || res.1 = some (Outcome.abandoned idx)

/-- A step keeps the identity and the connection limit of a backend. -/
def KeepsStatic (b c : Backend) : Prop :=
  c.URL = b.URL ∧ c.Connections = b.Connections

/-- A step keeps the identity and the connection limit of a backend and does
not turn an unhealthy backend healthy. -/
def KeepsDown (b c : Backend) : Prop :=
  c.URL = b.URL ∧ c.Connections = b.Connections ∧ (b.Alive = false → c.Alive = false)

/-- The backend `b` sits at position `i` of the pool with its URL and its
connection limit, no other position carries its URL, and its tracked count
is `c`. -/
def Tracks (i : Nat) (b : Backend) (c : Int) (st : State) : Prop :=
  (∃ b1, st.serverPool.backends[i]? = some b1 ∧ b1.URL = b.URL ∧
    b1.Connections = b.Connections) ∧
  (∀ (j : Nat) (b2 : Backend), st.serverPool.backends[j]? = some b2 → b2.URL = b.URL → j = i) ∧
  st.internalConnections.count b.URL = c

/-- The results of `n` serial calls of `GetNextPeer`, and the pool after them. -/
def callsGetNextPeer : Nat → ServerPool → List Selection × ServerPool
  | 0, s => ([], s)
  | n + 1, s =>
    let r := s.GetNextPeer
    let rest := callsGetNextPeer n r.2
    (r.1 :: rest.1, rest.2)

/-! ## Example pools -/

/-- A pool of three backends A, B and C with weights 1, 5 and 2 and
connection limit 2, with the given health flags and cursor. -/
def poolABC (aliveA aliveB aliveC : Bool) (cursor : Nat) : ServerPool :=
  { backends :=
      [ { URL := "http://a:8081", Alive := aliveA, Latency := 300, Weight := F64.finite 1,
          Connections := 2 },
        { URL := "http://b:8082", Alive := aliveB, Latency := 100, Weight := F64.finite 5,
          Connections := 2 },
        { URL := "http://c:8083", Alive := aliveC, Latency := 100, Weight := F64.finite 2,
          Connections := 2 } ],
    current := cursor }

/-- The state after start-up over `poolABC`: every tracked count is zero. -/
def stateABC (aliveA aliveB aliveC : Bool) (cursor : Nat) : State :=
  { serverPool := poolABC aliveA aliveB aliveC cursor,
    internalConnections :=
      { connections := [("http://a:8081", 0), ("http://b:8082", 0), ("http://c:8083", 0)] } }

/-- A backend as `main` adds it to the pool: alive, with no latency sample yet. -/
def configured (host : String) (weight : F64) (connections : Int) : Backend :=
  { URL := host, Alive := true, Latency := 0, Weight := weight, Connections := connections }

/-- The state after start-up with five configured backends. -/
def stateFive : State :=
  resetConnections
    { serverPool :=
        { backends :=
            [ configured "http://s0:9000" (F64.finite 1) 100,
              configured "http://s1:9000" (F64.finite 1) 100,
              configured "http://s2:9000" (F64.finite 1) 100,
              configured "http://s3:9000" (F64.finite 1) 100,
              configured "http://s4:9000" (F64.finite 1) 100 ],
          current := 0 },
      internalConnections := { connections := [] } }

/-- The state after start-up when the configuration lists the same host
twice, each entry with connection limit 2. -/
def stateTwins : State :=
  resetConnections
    { serverPool :=
        { backends :=
            [ configured "http://a:8081" (F64.finite 1) 2,
              configured "http://a:8081" (F64.finite 1) 2 ],
          current := 0 },
      internalConnections := { connections := [] } }

/-- A single healthy backend whose connection limit is the largest `int`,
`2 ^ 63 - 1`, with the given cursor and tracked count. -/
def stateMax (cursor : Nat) (count : Int) : State :=
  { serverPool :=
      { backends := [configured "http://a:8081" (F64.finite 1) 9223372036854775807],
        current := cursor },
    internalConnections := { connections := [("http://a:8081", count)] } }

/-! # Theorems -/

/-! ## Round-robin selection -/

theorem aliveAt_of_getElem? {s : ServerPool} {k : Nat} {b : Backend}
    (h : s.backends[k]? = some b) : s.aliveAt k = b.Alive := by
  simp [ServerPool.aliveAt, h, Backend.IsActive]

/-- The loop of `GetNextPeer` on a non-empty pool: it stops at the first
offset `d` below `fuel` whose backend is alive, or finds none. -/
theorem scanPeers_spec (s : ServerPool) (next : Nat) (hN : 0 < s.backends.length) :
    ∀ fuel i : Nat,
      (∃ d, d < fuel ∧ s.aliveAt ((i + d) % s.backends.length) = true ∧
          (∀ e, e < d → s.aliveAt ((i + e) % s.backends.length) = false) ∧
          scanPeers s next fuel i =
            (Selection.peer ((i + d) % s.backends.length),
              if i + d ≠ next then { s with current := (i + d) % s.backends.length } else s))
      ∨ ((∀ e, e < fuel → s.aliveAt ((i + e) % s.backends.length) = false) ∧
          scanPeers s next fuel i = (Selection.null, s)) := by
  intro fuel
  induction fuel with
  | zero =>
    intro i
    right
    exact ⟨fun e he => absurd he (Nat.not_lt_zero e), rfl⟩
  | succ fuel ih =>
    intro i
    have hlt : i % s.backends.length < s.backends.length := Nat.mod_lt _ hN
    obtain ⟨b, hb⟩ : ∃ b, s.backends[i % s.backends.length]? = some b :=
      ⟨s.backends[i % s.backends.length], List.getElem?_eq_getElem hlt⟩
    have hal := aliveAt_of_getElem? hb
    by_cases hact : b.Alive = true
    · left
      refine ⟨0, Nat.succ_pos _, ?_, ?_, ?_⟩
      · simpa [hal] using hact
      · intro e he
        exact absurd he (Nat.not_lt_zero e)
      · simp [scanPeers, hb, Backend.IsActive, hact]
    · have hstep : scanPeers s next (fuel + 1) i = scanPeers s next fuel (i + 1) := by
        simp [scanPeers, hb, Backend.IsActive, hact]
      have hfalse : s.aliveAt ((i + 0) % s.backends.length) = false := by
        simpa [hal] using hact
      rcases ih (i + 1) with ⟨d, hd, hdal, hmin, heq⟩ | ⟨hall, heq⟩
      · left
        refine ⟨d + 1, Nat.succ_lt_succ hd, ?_, ?_, ?_⟩
        · rw [show i + (d + 1) = i + 1 + d by omega]
          exact hdal
        · intro e he
          cases e with
          | zero => exact hfalse
          | succ e =>
            rw [show i + (e + 1) = i + 1 + e by omega]
            exact hmin e (by omega)
        · rw [hstep, heq, show i + (d + 1) = i + 1 + d by omega]
      · right
        refine ⟨?_, by rw [hstep, heq]⟩
        intro e he
        cases e with
        | zero => exact hfalse
        | succ e =>
          rw [show i + (e + 1) = i + 1 + e by omega]
          exact hall e (by omega)

theorem exists_offset (n next j : Nat) (hj : j < n) : ∃ e, e < n ∧ (next + e) % n = j := by
  have hn : 0 < n := Nat.lt_of_le_of_lt (Nat.zero_le j) hj
  have hm : next % n < n := Nat.mod_lt _ hn
  by_cases hle : next % n ≤ j
  · refine ⟨j - next % n, by omega, ?_⟩
    rw [← Nat.mod_add_mod, show next % n + (j - next % n) = j by omega]
    exact Nat.mod_eq_of_lt hj
  · refine ⟨j + n - next % n, by omega, ?_⟩
    rw [← Nat.mod_add_mod, show next % n + (j + n - next % n) = j + n by omega,
      Nat.add_mod_right]
    exact Nat.mod_eq_of_lt hj

theorem aliveAt_true_iff {s : ServerPool} {k : Nat} :
    s.aliveAt k = true ↔ ∃ b, s.backends[k]? = some b ∧ b.Alive = true := by
  unfold ServerPool.aliveAt
  cases h : s.backends[k]? with
  | none => simp
  | some b => simp [Backend.IsActive]

/-- `GetNextPeer` on a non-empty pool, with `c` the advanced cursor and
`next = c % len`: it returns the first alive backend at an offset `d` from
`next` and leaves the cursor at `c` (`d = 0`) or at the index found, or it
finds no alive backend and returns nil. -/
theorem getNextPeer_spec (s : ServerPool) (hN : 0 < s.backends.length) :
    (∃ d, d < s.backends.length ∧
        s.aliveAt (((s.current + 1) % 2 ^ 64 % s.backends.length + d) % s.backends.length) = true ∧
        (∀ e, e < d →
          s.aliveAt (((s.current + 1) % 2 ^ 64 % s.backends.length + e) % s.backends.length)
            = false) ∧
        s.GetNextPeer =
          (Selection.peer (((s.current + 1) % 2 ^ 64 % s.backends.length + d) % s.backends.length),
            { s with current :=
                if d = 0 then (s.current + 1) % 2 ^ 64
                else ((s.current + 1) % 2 ^ 64 % s.backends.length + d) % s.backends.length }))
    ∨ ((∀ j, j < s.backends.length → s.aliveAt j = false) ∧
        s.GetNextPeer = (Selection.null, { s with current := (s.current + 1) % 2 ^ 64 })) := by
  have hne : s.backends.length ≠ 0 := Nat.pos_iff_ne_zero.mp hN
  have hunf : s.GetNextPeer =
      scanPeers { s with current := (s.current + 1) % 2 ^ 64 }
        ((s.current + 1) % 2 ^ 64 % s.backends.length) s.backends.length
        ((s.current + 1) % 2 ^ 64 % s.backends.length) := by
    simp [ServerPool.GetNextPeer, ServerPool.NextIndex, hne]
  rcases scanPeers_spec { s with current := (s.current + 1) % 2 ^ 64 }
      ((s.current + 1) % 2 ^ 64 % s.backends.length) hN s.backends.length
      ((s.current + 1) % 2 ^ 64 % s.backends.length) with ⟨d, hd, hdal, hmin, heq⟩ | ⟨hall, heq⟩
  · left
    refine ⟨d, hd, hdal, hmin, ?_⟩
    rw [hunf, heq]
    by_cases h0 : d = 0
    · subst h0
      simp
    · have : (s.current + 1) % 2 ^ 64 % s.backends.length + d
          ≠ (s.current + 1) % 2 ^ 64 % s.backends.length := by omega
      simp [this, h0]
  · right
    refine ⟨?_, by rw [hunf, heq]⟩
    intro j hj
    obtain ⟨e, he, hej⟩ := exists_offset s.backends.length
      ((s.current + 1) % 2 ^ 64 % s.backends.length) j hj
    have h2 : s.aliveAt (((s.current + 1) % 2 ^ 64 % s.backends.length + e)
        % s.backends.length) = false := hall e he
    rwa [hej] at h2

theorem aliveAt_of_all_alive {s : ServerPool} (hall : ∀ b, b ∈ s.backends → b.Alive = true)
    {j : Nat} (hj : j < s.backends.length) : s.aliveAt j = true := by
  rw [aliveAt_true_iff]
  exact ⟨s.backends[j], List.getElem?_eq_getElem hj, hall _ (List.getElem_mem _)⟩

/-- With every backend alive and no wrap of the cursor, `GetNextPeer` returns
the backend at the advanced cursor and only advances the cursor. -/
theorem getNextPeer_all_alive (s : ServerPool) (hN : 0 < s.backends.length)
    (hall : ∀ b, b ∈ s.backends → b.Alive = true) (hc : s.current + 1 < 2 ^ 64) :
    s.GetNextPeer =
      (Selection.peer ((s.current + 1) % s.backends.length),
        { s with current := s.current + 1 }) := by
  have hmod : (s.current + 1) % 2 ^ 64 = s.current + 1 := Nat.mod_eq_of_lt hc
  rcases getNextPeer_spec s hN with ⟨d, _, _, hmin, heq⟩ | ⟨hdead, _⟩
  · have hd0 : d = 0 := by
      by_contra hd
      have h1 := hmin 0 (Nat.pos_of_ne_zero hd)
      have h2 := aliveAt_of_all_alive hall
        (Nat.mod_lt ((s.current + 1) % 2 ^ 64 % s.backends.length + 0) hN)
      rw [h1] at h2
      exact Bool.noConfusion h2
    subst hd0
    rw [heq, hmod]
    simp
  · have h2 := aliveAt_of_all_alive hall hN
    rw [hdead 0 hN] at h2
    exact Bool.noConfusion h2

theorem callsGetNextPeer_all_alive (n : Nat) :
    ∀ s : ServerPool, 0 < s.backends.length → (∀ b, b ∈ s.backends → b.Alive = true) →
      s.current + n < 2 ^ 64 →
      callsGetNextPeer n s =
        ((List.range n).map (fun j => Selection.peer ((s.current + 1 + j) % s.backends.length)),
          { s with current := s.current + n }) := by
  induction n with
  | zero =>
    intro s _ _ _
    rfl
  | succ n ih =>
    intro s hN hall hc
    have h1 := getNextPeer_all_alive s hN hall (by omega)
    have h2 := ih { s with current := s.current + 1 } hN hall
      (by show s.current + 1 + n < 2 ^ 64; omega)
    simp only [callsGetNextPeer, h1, h2, List.range_succ_eq_map, List.map_cons, List.map_map]
    refine Prod.ext ?_ ?_
    · simp only [Nat.add_zero, List.cons.injEq, true_and]
      apply List.map_congr_left
      intro j _
      simp only [Function.comp, Nat.succ_eq_add_one]
      rw [show s.current + 1 + 1 + j = s.current + 1 + (j + 1) by omega]
    · simp only
      rw [show s.current + 1 + n = s.current + (n + 1) by omega]

theorem rotation_perm (n c : Nat) :
    ((List.range n).map (fun j => (c + j) % n)).Perm (List.range n) := by
  rcases Nat.eq_zero_or_pos n with h0 | hn
  · subst h0
    exact List.Perm.refl _
  · have hnodup : ((List.range n).map (fun j => (c + j) % n)).Nodup := by
      refine List.Nodup.map_on ?_ (List.nodup_range n)
      intro x hx y hy hxy
      rw [List.mem_range] at hx hy
      have h1 : x ≡ y [MOD n] := Nat.ModEq.add_left_cancel' c hxy
      have h2 : x % n = y % n := h1
      rwa [Nat.mod_eq_of_lt hx, Nat.mod_eq_of_lt hy] at h2
    have hsub : (List.range n).map (fun j => (c + j) % n) ⊆ List.range n := by
      intro x hx
      rw [List.mem_map] at hx
      obtain ⟨j, _, rfl⟩ := hx
      exact List.mem_range.mpr (Nat.mod_lt _ hn)
    exact (List.subperm_of_subset hnodup hsub).perm_of_length_le (by simp)

/-- C2: on a non-empty pool, for every cursor value, `GetNextPeer` never
returns a backend whose healthy flag is false; with at least one healthy
backend it returns a healthy backend, and with every backend unhealthy it
returns nil. -/
theorem getNextPeer_returns_only_healthy (s : ServerPool) (hne : s.backends ≠ []) :
    (∀ k, s.GetNextPeer.1 = Selection.peer k →
      ∃ b, s.backends[k]? = some b ∧ b.Alive = true) ∧
    ((∃ b, b ∈ s.backends ∧ b.Alive = true) →
      ∃ k b, s.GetNextPeer.1 = Selection.peer k ∧ s.backends[k]? = some b ∧ b.Alive = true) ∧
    ((∀ b, b ∈ s.backends → b.Alive = false) → s.GetNextPeer.1 = Selection.null) := by
  have hN : 0 < s.backends.length := List.length_pos.mpr hne
  rcases getNextPeer_spec s hN with ⟨d, _, hal, _, heq⟩ | ⟨hdead, heq⟩
  · obtain ⟨b, hb, hbal⟩ := aliveAt_true_iff.mp hal
    refine ⟨?_, ?_, ?_⟩
    · intro k hk
      rw [heq] at hk
      cases hk
      exact ⟨b, hb, hbal⟩
    · intro _
      exact ⟨_, b, by rw [heq], hb, hbal⟩
    · intro hall
      have := hall b (List.getElem?_mem hb)
      rw [hbal] at this
      exact Bool.noConfusion this
  · refine ⟨?_, ?_, ?_⟩
    · intro k hk
      rw [heq] at hk
      cases hk
    · rintro ⟨b, hmem, hbal⟩
      obtain ⟨j, hj, hjb⟩ := List.getElem_of_mem hmem
      have h1 : s.aliveAt j = true :=
        aliveAt_true_iff.mpr ⟨b, by rw [List.getElem?_eq_getElem hj, hjb], hbal⟩
      rw [hdead j hj] at h1
      exact Bool.noConfusion h1
    · intro _
      rw [heq]

/-- C2, at the pool A (unhealthy), B, C with the cursor at 2: B is returned. -/
theorem getNextPeer_returns_only_healthy_witness :
    (poolABC false true true 2).backends ≠ [] ∧
    ∃ b, (poolABC false true true 2).backends[1]? = some b ∧ b.Alive = true :=
  ⟨by decide,
    (getNextPeer_returns_only_healthy (poolABC false true true 2) (by decide)).1 1 (by decide)⟩

/-- C1 (amended): on a non-empty pool of `N` healthy backends whose cursor `c`
does not wrap during the calls (`c + N < 2 ^ 64`), `N` serial calls of
`GetNextPeer` return the backends at `(c + 1) % N`, `(c + 2) % N`, ... in this
order, which is each backend exactly once. -/
theorem roundRobin_visits_each_once (s : ServerPool) (hne : s.backends ≠ [])
    (hall : ∀ b, b ∈ s.backends → b.Alive = true)
    (hc : s.current + s.backends.length < 2 ^ 64) :
    (callsGetNextPeer s.backends.length s).1 =
        (List.range s.backends.length).map
          (fun j => Selection.peer ((s.current + 1 + j) % s.backends.length)) ∧
    ((callsGetNextPeer s.backends.length s).1).Perm
        ((List.range s.backends.length).map Selection.peer) := by
  have hN : 0 < s.backends.length := List.length_pos.mpr hne
  have h := callsGetNextPeer_all_alive s.backends.length s hN hall hc
  refine ⟨by rw [h], ?_⟩
  rw [h]
  have hp := (rotation_perm s.backends.length (s.current + 1)).map Selection.peer
  rw [List.map_map] at hp
  exact hp

/-- C1 (amended), at three healthy backends with the cursor at 0. -/
theorem roundRobin_visits_each_once_witness :
    (callsGetNextPeer 3 (poolABC true true true 0)).1 =
        (List.range 3).map (fun j => Selection.peer ((0 + 1 + j) % 3)) ∧
    ((callsGetNextPeer 3 (poolABC true true true 0)).1).Perm
        ((List.range 3).map Selection.peer) :=
  roundRobin_visits_each_once (poolABC true true true 0) (by decide) (by decide) (by decide)

/-- C1 fails where the 64-bit cursor wraps: with three healthy backends and the
cursor at `2 ^ 64 - 2`, three calls return A, A, B, so that A is visited twice
and C never. -/
theorem roundRobin_wrap_counterexample :
    (∀ b, b ∈ (poolABC true true true 18446744073709551614).backends → b.Alive = true) ∧
    (callsGetNextPeer 3 (poolABC true true true 18446744073709551614)).1 =
      [Selection.peer 0, Selection.peer 0, Selection.peer 1] ∧
    ((callsGetNextPeer 3 (poolABC true true true 18446744073709551614)).1).count
      (Selection.peer 2) = 0 := by
  decide

/-- `GetNextPeer` leaves the backends as they are. -/
theorem getNextPeer_backends (s : ServerPool) : s.GetNextPeer.2.backends = s.backends := by
  rcases Nat.eq_zero_or_pos s.backends.length with h0 | hN
  · simp [ServerPool.GetNextPeer, ServerPool.NextIndex, h0]
  · rcases getNextPeer_spec s hN with ⟨d, _, _, _, heq⟩ | ⟨_, heq⟩ <;> rw [heq]

/-- Without a wrap of the cursor and with a healthy backend in the pool,
`GetNextPeer` returns the first healthy backend strictly after the position
`current % len`, in cyclic order. -/
theorem getNextPeer_after (s : ServerPool) (hN : 0 < s.backends.length)
    (hc : s.current + 1 < 2 ^ 64) (hex : ∃ j, s.aliveAt j = true) :
    ∃ d, d < s.backends.length ∧
      s.GetNextPeer.1 =
        Selection.peer ((s.current % s.backends.length + 1 + d) % s.backends.length) ∧
      s.aliveAt ((s.current % s.backends.length + 1 + d) % s.backends.length) = true ∧
      ∀ e, e < d →
        s.aliveAt ((s.current % s.backends.length + 1 + e) % s.backends.length) = false := by
  have hmod : (s.current + 1) % 2 ^ 64 = s.current + 1 := Nat.mod_eq_of_lt hc
  have hidx : ∀ e, ((s.current + 1) % 2 ^ 64 % s.backends.length + e) % s.backends.length
      = (s.current % s.backends.length + 1 + e) % s.backends.length := by
    intro e
    rw [hmod, Nat.mod_add_mod, Nat.add_assoc (s.current % s.backends.length), Nat.mod_add_mod,
      Nat.add_assoc]
  rcases getNextPeer_spec s hN with ⟨d, hd, hal, hmin, heq⟩ | ⟨hdead, _⟩
  · refine ⟨d, hd, ?_, ?_, ?_⟩
    · rw [heq, hidx]
    · rw [← hidx]
      exact hal
    · intro e he
      rw [← hidx]
      exact hmin e he
  · obtain ⟨j, hj⟩ := hex
    have hjN : j < s.backends.length := by
      by_contra hge
      have hnone : s.backends[j]? = none := List.getElem?_eq_none (Nat.le_of_not_lt hge)
      simp [ServerPool.aliveAt, hnone] at hj
    rw [hdead j hjN] at hj
    exact Bool.noConfusion hj

/-- C10 (amended): on a non-empty pool with fixed health flags and a healthy
backend, when `GetNextPeer` returns the backend at index `k` the cursor
afterwards is congruent to `k` modulo `N`; and when that cursor is below
`2 ^ 64 - 1`, so that the next advance does not wrap, the next call returns the
first healthy backend strictly after `k` in cyclic configuration order, which is
`k` itself when `k` is the only healthy one. -/
theorem getNextPeer_cursor_follows_peer (s : ServerPool) (hne : s.backends ≠ [])
    (hex : ∃ b, b ∈ s.backends ∧ b.Alive = true) :
    ∃ k, s.GetNextPeer.1 = Selection.peer k ∧
      s.GetNextPeer.2.backends = s.backends ∧
      s.GetNextPeer.2.current % s.backends.length = k ∧
      (s.GetNextPeer.2.current + 1 < 2 ^ 64 →
        ∃ d, d < s.backends.length ∧
          s.GetNextPeer.2.GetNextPeer.1 = Selection.peer ((k + 1 + d) % s.backends.length) ∧
          s.aliveAt ((k + 1 + d) % s.backends.length) = true ∧
          (∀ e, e < d → s.aliveAt ((k + 1 + e) % s.backends.length) = false) ∧
          ((∀ j, s.aliveAt j = true → j = k) →
            s.GetNextPeer.2.GetNextPeer.1 = Selection.peer k)) := by
  have hN : 0 < s.backends.length := List.length_pos.mpr hne
  have hbk := getNextPeer_backends s
  have hal1 : ∀ j, s.GetNextPeer.2.aliveAt j = s.aliveAt j := by
    intro j
    simp [ServerPool.aliveAt, hbk]
  obtain ⟨k, hk, hcur, hkal⟩ : ∃ k, s.GetNextPeer.1 = Selection.peer k ∧
      s.GetNextPeer.2.current % s.backends.length = k ∧ s.aliveAt k = true := by
    rcases getNextPeer_spec s hN with ⟨d, _, hal, _, heq⟩ | ⟨hdead, _⟩
    · refine ⟨_, by rw [heq], ?_, hal⟩
      rw [heq]
      by_cases hd : d = 0
      · subst hd
        simp
      · simp [hd]
    · obtain ⟨b, hmem, hbal⟩ := hex
      obtain ⟨j, hj, hjb⟩ := List.getElem_of_mem hmem
      have h1 : s.aliveAt j = true :=
        aliveAt_true_iff.mpr ⟨b, by rw [List.getElem?_eq_getElem hj, hjb], hbal⟩
      rw [hdead j hj] at h1
      exact Bool.noConfusion h1
  refine ⟨k, hk, hbk, hcur, ?_⟩
  intro hwrap
  have hN1 : 0 < s.GetNextPeer.2.backends.length := by rw [hbk]; exact hN
  obtain ⟨d, hd, hres, hdal, hmin⟩ :=
    getNextPeer_after s.GetNextPeer.2 hN1 hwrap ⟨k, by rw [hal1]; exact hkal⟩
  rw [hbk] at hd hres hdal hmin
  rw [hcur] at hres hdal hmin
  rw [hal1] at hdal
  refine ⟨d, hd, hres, hdal, ?_, ?_⟩
  · intro e he
    rw [← hal1]
    exact hmin e he
  · intro honly
    rw [hres, honly _ hdal]

/-- C10 (amended), at the pool A (unhealthy), B, C with the cursor at A: the
hypotheses hold, the first call returns B, and three calls return B, C, B. -/
theorem getNextPeer_cursor_follows_peer_witness :
    (poolABC false true true 0).backends ≠ [] ∧
    (∃ b, b ∈ (poolABC false true true 0).backends ∧ b.Alive = true) ∧
    (∃ k, (poolABC false true true 0).GetNextPeer.1 = Selection.peer k ∧
      (poolABC false true true 0).GetNextPeer.2.current % 3 = k) ∧
    (callsGetNextPeer 3 (poolABC false true true 0)).1 =
      [Selection.peer 1, Selection.peer 2, Selection.peer 1] := by
  have hne : (poolABC false true true 0).backends ≠ [] := by decide
  have hex : ∃ b, b ∈ (poolABC false true true 0).backends ∧ b.Alive = true := by decide
  obtain ⟨k, hk, _, hcur, _⟩ := getNextPeer_cursor_follows_peer _ hne hex
  exact ⟨hne, hex, ⟨k, hk, hcur⟩, by decide⟩

/-- C10 fails where the 64-bit cursor wraps: with three healthy backends and the
cursor at `2 ^ 64 - 2`, `GetNextPeer` returns A and leaves the cursor at
`2 ^ 64 - 1`, which is congruent to 0 modulo 3, but the next call returns A
again although B, the first backend after A, is healthy. -/
theorem getNextPeer_wrap_counterexample :
    (poolABC true true true 18446744073709551614).GetNextPeer.1 = Selection.peer 0 ∧
    (poolABC true true true 18446744073709551614).GetNextPeer.2.current % 3 = 0 ∧
    (poolABC true true true 18446744073709551614).GetNextPeer.2.GetNextPeer.1
      = Selection.peer 0 ∧
    (poolABC true true true 18446744073709551614).aliveAt 1 = true := by
  decide

/-! ## Least-latency and highest-weight selection -/

theorem getElem?_snoc {α : Type} (pre : List α) (x : α) (j : Nat) (b : α)
    (h : (pre ++ [x])[j]? = some b) : pre[j]? = some b ∨ (j = pre.length ∧ b = x) := by
  rcases Nat.lt_or_ge j pre.length with hlt | hge
  · left
    rwa [List.getElem?_append_left hlt] at h
  · right
    rw [List.getElem?_append_right hge] at h
    rcases Nat.eq_zero_or_pos (j - pre.length) with h0 | hpos
    · rw [h0] at h
      simp at h
      exact ⟨by omega, h.symm⟩
    · obtain ⟨m, hm⟩ := Nat.exists_eq_succ_of_ne_zero (Nat.pos_iff_ne_zero.mp hpos)
      rw [hm] at h
      simp at h

/-- The loop of `GetLowestLatency`: from a position `best` that holds the
first minimum of the backends already seen, it ends at the first minimum of
all the backends. -/
theorem lowestLoop_spec (rest : List Backend) :
    ∀ (pre : List Backend) (best : Nat) (lat : Int),
      (∃ b, pre[best]? = some b ∧ b.Latency = lat) →
      (∀ (j : Nat) (b : Backend), pre[j]? = some b → lat ≤ b.Latency) →
      (∀ (j : Nat) (b : Backend), j < best → pre[j]? = some b → lat < b.Latency) →
      ∃ b, (pre ++ rest)[lowestLoop rest pre.length best lat]? = some b ∧
        (∀ (j : Nat) (c : Backend), (pre ++ rest)[j]? = some c → b.Latency ≤ c.Latency) ∧
        (∀ (j : Nat) (c : Backend), j < lowestLoop rest pre.length best lat →
          (pre ++ rest)[j]? = some c → b.Latency < c.Latency) := by
  induction rest with
  | nil =>
    intro pre best lat ⟨b, hb, hlat⟩ hmin hfirst
    subst hlat
    refine ⟨b, by simpa [lowestLoop] using hb, ?_, ?_⟩
    · intro j c hc
      exact hmin j c (by simpa using hc)
    · intro j c hj hc
      exact hfirst j c (by simpa [lowestLoop] using hj) (by simpa using hc)
  | cons server rest ih =>
    intro pre best lat ⟨b, hb, hlat⟩ hmin hfirst
    have hlen : (pre ++ [server]).length = pre.length + 1 := by simp
    have happ : pre ++ server :: rest = (pre ++ [server]) ++ rest := by simp
    have hbest : best < pre.length := by
      rcases Nat.lt_or_ge best pre.length with h | h
      · exact h
      · rw [List.getElem?_eq_none h] at hb
        cases hb
    by_cases hlt : server.Latency < lat
    · have h := ih (pre ++ [server]) pre.length server.Latency
        ⟨server, by simp, rfl⟩
        (by
          intro j c hc
          rcases getElem?_snoc pre server j c hc with h1 | ⟨_, h2⟩
          · exact le_of_lt (lt_of_lt_of_le hlt (hmin j c h1))
          · rw [h2])
        (by
          intro j c hj hc
          rcases getElem?_snoc pre server j c hc with h1 | ⟨h2, _⟩
          · exact lt_of_lt_of_le hlt (hmin j c h1)
          · omega)
      rw [hlen] at h
      simpa only [lowestLoop, hlt, if_true, happ] using h
    · have h := ih (pre ++ [server]) best lat
        ⟨b, by rw [List.getElem?_append_left hbest]; exact hb, hlat⟩
        (by
          intro j c hc
          rcases getElem?_snoc pre server j c hc with h1 | ⟨_, h2⟩
          · exact hmin j c h1
          · rw [h2]
            exact not_lt.mp hlt)
        (by
          intro j c hj hc
          rcases getElem?_snoc pre server j c hc with h1 | ⟨h2, _⟩
          · exact hfirst j c hj h1
          · omega)
      rw [hlen] at h
      simpa only [lowestLoop, hlt, if_false, happ] using h

/-- C5: on a non-empty pool `GetLowestLatency` returns the backend whose
recorded latency is the minimum over all configured backends, healthy or not,
and the first such backend in configuration order. -/
theorem getLowestLatency_first_minimum (s : ServerPool) (hne : s.backends ≠ []) :
    ∃ i b, s.GetLowestLatency = Selection.peer i ∧ s.backends[i]? = some b ∧
      (∀ (j : Nat) (c : Backend), s.backends[j]? = some c → b.Latency ≤ c.Latency) ∧
      (∀ (j : Nat) (c : Backend), j < i → s.backends[j]? = some c → b.Latency < c.Latency) := by
  cases hbs : s.backends with
  | nil => exact absurd hbs hne
  | cons first rest =>
    have h := lowestLoop_spec rest [first] 0 first.Latency ⟨first, rfl, rfl⟩
      (by
        intro j c hc
        cases j with
        | zero =>
          simp at hc
          rw [hc]
        | succ j => simp at hc)
      (by
        intro j c hj _
        exact absurd hj (Nat.not_lt_zero j))
    obtain ⟨b, hb, hmin, hfirst⟩ := h
    refine ⟨lowestLoop rest 1 0 first.Latency, b, ?_, hb, hmin, hfirst⟩
    simp [ServerPool.GetLowestLatency, hbs]

/-- C5, at the pool A, B, C with latencies 300, 100, 100 and A and B unhealthy:
B, the first of the two backends with the least latency, is returned. -/
theorem getLowestLatency_first_minimum_witness :
    (poolABC false false true 0).backends ≠ [] ∧
    (poolABC false false true 0).GetLowestLatency = Selection.peer 1 ∧
    ∃ i b, (poolABC false false true 0).GetLowestLatency = Selection.peer i ∧
      (poolABC false false true 0).backends[i]? = some b ∧
      (∀ (j : Nat) (c : Backend), (poolABC false false true 0).backends[j]? = some c → b.Latency ≤ c.Latency) ∧
      (∀ (j : Nat) (c : Backend), j < i → (poolABC false false true 0).backends[j]? = some c →
        b.Latency < c.Latency) :=
  ⟨by decide, by decide, getLowestLatency_first_minimum (poolABC false false true 0) (by decide)⟩

theorem F64.le_refl_of_nonneg {a : F64} (ha : a.nonneg = true) : a.le a = true := by
  cases a <;> simp [F64.nonneg, F64.le] at *

theorem F64.le_of_not_gt {a w : F64} (ha : a.nonneg = true) (hw : w.nonneg = true)
    (h : ¬ a.gt w = true) : a.le w = true := by
  cases a <;> cases w <;> simp [F64.nonneg, F64.le, F64.gt] at *
  exact h

theorem F64.le_of_le_of_gt {b w a : F64} (hb : b.nonneg = true) (hw : w.nonneg = true)
    (ha : a.nonneg = true) (h1 : b.le w = true) (h2 : a.gt w = true) : b.le a = true := by
  cases a <;> cases w <;> cases b <;> simp [F64.nonneg, F64.le, F64.gt] at *
  linarith

theorem F64.gt_of_le_of_gt {b w a : F64} (hb : b.nonneg = true) (hw : w.nonneg = true)
    (ha : a.nonneg = true) (h1 : b.le w = true) (h2 : a.gt w = true) : a.gt b = true := by
  cases a <;> cases w <;> cases b <;> simp [F64.nonneg, F64.le, F64.gt] at *
  linarith

/-- The loop of `GetHighestWeight` on non-negative weights: from a position
`best` that holds the first maximum of the backends already seen, it ends at
the first maximum of all the backends. -/
theorem highestLoop_spec (rest : List Backend) :
    ∀ (pre : List Backend) (best : Nat) (w : F64),
      (∀ c : Backend, c ∈ pre ++ rest → c.Weight.nonneg = true) →
      (∃ b, pre[best]? = some b ∧ b.Weight = w) →
      (∀ (j : Nat) (c : Backend), pre[j]? = some c → c.Weight.le w = true) →
      (∀ (j : Nat) (c : Backend), j < best → pre[j]? = some c → w.gt c.Weight = true) →
      ∃ b, (pre ++ rest)[highestLoop rest pre.length best w]? = some b ∧
        (∀ (j : Nat) (c : Backend), (pre ++ rest)[j]? = some c →
          c.Weight.le b.Weight = true) ∧
        (∀ (j : Nat) (c : Backend), j < highestLoop rest pre.length best w →
          (pre ++ rest)[j]? = some c → b.Weight.gt c.Weight = true) := by
  induction rest with
  | nil =>
    intro pre best w _ ⟨b, hb, hw⟩ hmax hfirst
    subst hw
    refine ⟨b, by simpa [highestLoop] using hb, ?_, ?_⟩
    · intro j c hc
      exact hmax j c (by simpa using hc)
    · intro j c hj hc
      exact hfirst j c (by simpa [highestLoop] using hj) (by simpa using hc)
  | cons server rest ih =>
    intro pre best w hnn ⟨b, hb, hbw⟩ hmax hfirst
    have hlen : (pre ++ [server]).length = pre.length + 1 := by simp
    have happ : pre ++ server :: rest = (pre ++ [server]) ++ rest := by simp
    have hbest : best < pre.length := by
      rcases Nat.lt_or_ge best pre.length with h | h
      · exact h
      · rw [List.getElem?_eq_none h] at hb
        cases hb
    have hnn1 : ∀ c : Backend, c ∈ (pre ++ [server]) ++ rest → c.Weight.nonneg = true := by
      rw [← happ]
      exact hnn
    have hsrv : server.Weight.nonneg = true := hnn server (by simp)
    have hpre : ∀ (j : Nat) (c : Backend), pre[j]? = some c → c.Weight.nonneg = true := by
      intro j c hc
      exact hnn c (List.mem_append_left _ (List.getElem?_mem hc))
    have hwnn : w.nonneg = true := by
      rw [← hbw]
      exact hpre best b hb
    by_cases hgt : server.Weight.gt w = true
    · have h := ih (pre ++ [server]) pre.length server.Weight hnn1
        ⟨server, by simp, rfl⟩
        (by
          intro j c hc
          rcases getElem?_snoc pre server j c hc with h1 | ⟨_, h2⟩
          · exact F64.le_of_le_of_gt (hpre j c h1) hwnn hsrv (hmax j c h1) hgt
          · rw [h2]
            exact F64.le_refl_of_nonneg hsrv)
        (by
          intro j c hj hc
          rcases getElem?_snoc pre server j c hc with h1 | ⟨h2, _⟩
          · exact F64.gt_of_le_of_gt (hpre j c h1) hwnn hsrv (hmax j c h1) hgt
          · omega)
      rw [hlen] at h
      simpa only [highestLoop, hgt, if_true, happ] using h
    · have h := ih (pre ++ [server]) best w hnn1
        ⟨b, by rw [List.getElem?_append_left hbest]; exact hb, hbw⟩
        (by
          intro j c hc
          rcases getElem?_snoc pre server j c hc with h1 | ⟨_, h2⟩
          · exact hmax j c h1
          · rw [h2]
            exact F64.le_of_not_gt hsrv hwnn hgt)
        (by
          intro j c hj hc
          rcases getElem?_snoc pre server j c hc with h1 | ⟨h2, _⟩
          · exact hfirst j c hj h1
          · omega)
      rw [hlen] at h
      simpa only [highestLoop, hgt, if_false, happ] using h

/-- C6: on a non-empty pool with non-negative weights `GetHighestWeight`
returns the backend whose weight is the maximum over all configured backends,
and the first such backend in configuration order. -/
theorem getHighestWeight_first_maximum (s : ServerPool) (hne : s.backends ≠ [])
    (hw : ∀ b : Backend, b ∈ s.backends → b.Weight.nonneg = true) :
    ∃ i b, s.GetHighestWeight = Selection.peer i ∧ s.backends[i]? = some b ∧
      (∀ (j : Nat) (c : Backend), s.backends[j]? = some c → c.Weight.le b.Weight = true) ∧
      (∀ (j : Nat) (c : Backend), j < i → s.backends[j]? = some c →
        b.Weight.gt c.Weight = true) := by
  cases hbs : s.backends with
  | nil => exact absurd hbs hne
  | cons first rest =>
    rw [hbs] at hw
    have h := highestLoop_spec rest [first] 0 first.Weight hw ⟨first, rfl, rfl⟩
      (by
        intro j c hc
        cases j with
        | zero =>
          simp at hc
          rw [← hc]
          exact F64.le_refl_of_nonneg (hw first (by simp))
        | succ j => simp at hc)
      (by
        intro j c hj _
        exact absurd hj (Nat.not_lt_zero j))
    obtain ⟨b, hb, hmax, hfirst⟩ := h
    refine ⟨highestLoop rest 1 0 first.Weight, b, ?_, hb, hmax, hfirst⟩
    simp [ServerPool.GetHighestWeight, hbs]

/-- C6, at A (weight 1), B (weight 5), C (weight 2): B is returned. -/
theorem getHighestWeight_first_maximum_witness :
    (poolABC true true true 0).backends ≠ [] ∧
    (∀ b : Backend, b ∈ (poolABC true true true 0).backends → b.Weight.nonneg = true) ∧
    (poolABC true true true 0).GetHighestWeight = Selection.peer 1 ∧
    ∃ i b, (poolABC true true true 0).GetHighestWeight = Selection.peer i ∧
      (poolABC true true true 0).backends[i]? = some b ∧
      (∀ (j : Nat) (c : Backend), (poolABC true true true 0).backends[j]? = some c →
        c.Weight.le b.Weight = true) ∧
      (∀ (j : Nat) (c : Backend), j < i → (poolABC true true true 0).backends[j]? = some c →
        b.Weight.gt c.Weight = true) :=
  ⟨by decide, by decide, by decide,
    getHighestWeight_first_maximum (poolABC true true true 0) (by decide) (by decide)⟩

/-! ## Health check -/

/-- C8: one health-check step on a backend, `SetAlive(result)` followed by
`SetLatency(elapsed)`, leaves the healthy flag equal to the probe result; the
stored latency is unchanged when the probe fails and is the measured time when
it succeeds; and `SetLatency` on a backend marked unhealthy changes nothing. -/
theorem healthCheckStep_flag_and_latency (b : Backend) (result : Bool) (elapsed : Int) :
    (healthCheckStep b (result, elapsed)).Alive = result ∧
    (healthCheckStep b (result, elapsed)).Latency = (if result then elapsed else b.Latency) ∧
    (healthCheckStep b (false, elapsed)).Latency = b.Latency ∧
    (healthCheckStep b (true, elapsed)).Latency = elapsed ∧
    (b.SetAlive false).SetLatency elapsed = b.SetAlive false := by
  cases result <;> simp [healthCheckStep, Backend.SetAlive, Backend.SetLatency]

/-! ## What the operations keep of each backend -/

theorem keepsDown_refl (b : Backend) : KeepsDown b b := ⟨rfl, rfl, id⟩

theorem keepsStatic_refl (b : Backend) : KeepsStatic b b := ⟨rfl, rfl⟩

theorem keepsDown_static {b c : Backend} (h : KeepsDown b c) : KeepsStatic b c := ⟨h.1, h.2.1⟩

theorem forall₂_refl_of {R : Backend → Backend → Prop} (hR : ∀ b, R b b) :
    ∀ l : List Backend, List.Forall₂ R l l
  | [] => List.Forall₂.nil
  | b :: l => List.Forall₂.cons (hR b) (forall₂_refl_of hR l)

theorem forall₂_getElem? {R : Backend → Backend → Prop} {l l2 : List Backend}
    (h : List.Forall₂ R l l2) :
    ∀ (i : Nat) (b : Backend), l[i]? = some b → ∃ c, l2[i]? = some c ∧ R b c := by
  induction h with
  | nil =>
    intro i b hb
    simp at hb
  | cons hab _ ih =>
    intro i b hb
    cases i with
    | zero =>
      simp at hb
      subst hb
      exact ⟨_, by simp, hab⟩
    | succ i =>
      simp at hb
      simpa using ih i b hb

theorem forall₂_getElem?_rev {R : Backend → Backend → Prop} {l l2 : List Backend}
    (h : List.Forall₂ R l l2) :
    ∀ (i : Nat) (c : Backend), l2[i]? = some c → ∃ b, l[i]? = some b ∧ R b c := by
  induction h with
  | nil =>
    intro i c hc
    simp at hc
  | cons hab _ ih =>
    intro i c hc
    cases i with
    | zero =>
      simp at hc
      subst hc
      exact ⟨_, by simp, hab⟩
    | succ i =>
      simp at hc
      simpa using ih i c hc

theorem forall₂_set {R : Backend → Backend → Prop} (hR : ∀ b, R b b) :
    ∀ (l : List Backend) (i : Nat) (b c : Backend), l[i]? = some b → R b c →
      List.Forall₂ R l (l.set i c)
  | [], i, b, c, hb, _ => by simp at hb
  | a :: l, 0, b, c, hb, hbc => by
    simp at hb
    subst hb
    exact List.Forall₂.cons hbc (forall₂_refl_of hR l)
  | a :: l, i + 1, b, c, hb, hbc => by
    simp at hb
    exact List.Forall₂.cons (hR a) (forall₂_set hR l i b c hb hbc)

theorem update_keeps {R : Backend → Backend → Prop} (hR : ∀ b, R b b) (s : ServerPool)
    (idx : Nat) (f : Backend → Backend) (hf : ∀ b, R b (f b)) :
    List.Forall₂ R s.backends (s.update idx f).backends := by
  unfold ServerPool.update
  cases h : s.backends[idx]? with
  | none => exact forall₂_refl_of hR _
  | some b => exact forall₂_set hR _ _ b _ h (hf b)

theorem markFirst_keepsDown (url : String) :
    ∀ l : List Backend, List.Forall₂ KeepsDown l (markFirst url false l)
  | [] => List.Forall₂.nil
  | b :: l => by
    unfold markFirst
    by_cases h : b.URL = url
    · rw [if_pos h]
      exact List.Forall₂.cons ⟨rfl, rfl, fun _ => rfl⟩ (forall₂_refl_of keepsDown_refl l)
    · rw [if_neg h]
      exact List.Forall₂.cons (keepsDown_refl b) (markFirst_keepsDown url l)

theorem healthCheckStep_keepsStatic (b : Backend) (status : Bool × Int) :
    KeepsStatic b (healthCheckStep b status) := by
  unfold healthCheckStep Backend.SetLatency Backend.SetAlive KeepsStatic
  split <;> exact ⟨rfl, rfl⟩

theorem healthCheckLoop_keepsStatic :
    ∀ (l : List Backend) (dials : List (Option Int)),
      List.Forall₂ KeepsStatic l (healthCheckLoop l dials)
  | [], _ => by
    unfold healthCheckLoop
    exact List.Forall₂.nil
  | b :: l, [] => by
    unfold healthCheckLoop
    exact List.Forall₂.cons (healthCheckStep_keepsStatic _ _) (healthCheckLoop_keepsStatic l [])
  | b :: l, d :: dials => by
    unfold healthCheckLoop
    exact List.Forall₂.cons (healthCheckStep_keepsStatic _ _)
      (healthCheckLoop_keepsStatic l dials)

theorem admission_keepsDown (st : State) (idx : Nat) :
    List.Forall₂ KeepsDown st.serverPool.backends (admission st idx).2.serverPool.backends := by
  unfold admission
  cases h : st.serverPool.backends[idx]? with
  | none => exact forall₂_refl_of keepsDown_refl _
  | some peer =>
    simp only
    split
    · exact update_keeps keepsDown_refl _ _ _ (fun b => ⟨rfl, rfl, fun _ => rfl⟩)
    · exact forall₂_refl_of keepsDown_refl _

theorem selectPeer_backends (policy : Policy) (st : State) :
    (selectPeer policy st).2.serverPool.backends = st.serverPool.backends := by
  cases policy with
  | leastTime => rfl
  | weightedRoundRobin => rfl
  | roundRobin => exact getNextPeer_backends _
  | connectionPerTime =>
    simp only [selectPeer]
    split
    · split <;> exact getNextPeer_backends _
    · exact getNextPeer_backends _

theorem lb_keepsDown (algorithm : String) (r : Context) (st : State) :
    List.Forall₂ KeepsDown st.serverPool.backends (lb algorithm r st).2.serverPool.backends := by
  unfold lb
  simp only
  split
  · exact forall₂_refl_of keepsDown_refl _
  · have hb := selectPeer_backends (policyOf algorithm) st
    split
    · next st1 heq =>
      rw [heq] at hb
      rw [← hb]
      exact forall₂_refl_of keepsDown_refl _
    · next st1 heq =>
      rw [heq] at hb
      rw [← hb]
      exact forall₂_refl_of keepsDown_refl _
    · next idx st1 heq =>
      rw [heq] at hb
      have := admission_keepsDown st1 idx
      rw [← hb]
      exact this

/-! ## Which operations can turn a backend healthy -/

theorem initLoop_all_alive :
    ∀ (l : List Backend) (m : List (String × Int)) (b : Backend),
      b ∈ (initLoop l m).1 → b.Alive = true
  | [], _, b, hb => by simp [initLoop] at hb
  | a :: l, m, b, hb => by
    simp only [initLoop, List.mem_cons] at hb
    rcases hb with h | h
    · rw [h]
    · exact initLoop_all_alive l _ b h

/-- Every operation of the core other than the health check and the
connection-count reset keeps every backend and does not turn an unhealthy one
healthy. -/
theorem other_op_keepsDown (op : CoreOp) (st : State) (hop : op.isOther = true) :
    List.Forall₂ KeepsDown st.serverPool.backends (op.apply st).serverPool.backends := by
  cases op with
  | initConnections => simp [CoreOp.isOther] at hop
  | healthCheck dials => simp [CoreOp.isOther] at hop
  | markBackendStatus url alive =>
    simp [CoreOp.isOther] at hop
    subst hop
    exact markFirst_keepsDown url _
  | setLatency idx latency =>
    refine update_keeps keepsDown_refl _ _ _ (fun b => ?_)
    unfold Backend.SetLatency
    split
    · exact ⟨rfl, rfl, fun h => h⟩
    · exact keepsDown_refl b
  | getNextPeer =>
    show List.Forall₂ KeepsDown st.serverPool.backends st.serverPool.GetNextPeer.2.backends
    rw [getNextPeer_backends]
    exact forall₂_refl_of keepsDown_refl _
  | getLowestLatency => exact forall₂_refl_of keepsDown_refl _
  | getHighestWeight => exact forall₂_refl_of keepsDown_refl _
  | lb algorithm r => exact lb_keepsDown algorithm r st

/-- C4 (amended): the health check and the connection-count reset
`InitConnections`, which sets every backend healthy, are the only paths that
can change a backend from unhealthy to healthy: after every other operation of
the core (`MarkBackendStatus` on a forwarding failure, `SetLatency`, the three
selection algorithms, `lb` with its admission check) every backend that was
unhealthy before is still unhealthy. -/
theorem unhealthy_stays_unhealthy (op : CoreOp) (st : State) (hop : op.isOther = true)
    (i : Nat) (b : Backend) (hb : st.serverPool.backends[i]? = some b)
    (hdown : b.Alive = false) :
    (∃ c, (op.apply st).serverPool.backends[i]? = some c ∧ c.URL = b.URL ∧ c.Alive = false) ∧
    (∀ c : Backend, c ∈ (CoreOp.initConnections.apply st).serverPool.backends →
      c.Alive = true) := by
  constructor
  · obtain ⟨c, hc, hurl, _, hal⟩ := forall₂_getElem? (other_op_keepsDown op st hop) i b hb
    exact ⟨c, hc, hurl, hal hdown⟩
  · intro c hc
    exact initLoop_all_alive _ _ c hc

/-- C4 (amended), at a request that finds backend A unhealthy under the default
policy: A is still unhealthy after `lb`. -/
theorem unhealthy_stays_unhealthy_witness :
    (CoreOp.lb "" freshContext).isOther = true ∧
    (stateABC false true true 0).serverPool.backends[0]?.map Backend.Alive = some false ∧
    ∃ c, ((CoreOp.lb "" freshContext).apply (stateABC false true true 0)).serverPool.backends[0]?
        = some c ∧ c.URL = "http://a:8081" ∧ c.Alive = false :=
  ⟨by decide, by decide,
    (unhealthy_stays_unhealthy (CoreOp.lb "" freshContext) (stateABC false true true 0)
      (by decide) 0
      { URL := "http://a:8081", Alive := false, Latency := 300, Weight := F64.finite 1,
        Connections := 2 } (by decide) (by decide)).1⟩

/-- C4 fails for the connection-count reset: `InitConnections` turns the
unhealthy backend A healthy. -/
theorem initConnections_resurrects_counterexample :
    (poolABC false true true 0).aliveAt 0 = false ∧
    (poolABC false true true 0).InitConnections.2.aliveAt 0 = true ∧
    (resetConnections (stateABC false true true 0)).serverPool.aliveAt 0 = true := by
  decide

/-! ## `lb` when no backend is healthy -/

theorem getNextPeer_all_dead (s : ServerPool) (hne : s.backends ≠ [])
    (hdead : ∀ b : Backend, b ∈ s.backends → b.Alive = false) :
    s.GetNextPeer = (Selection.null, { s with current := (s.current + 1) % 2 ^ 64 }) := by
  have hN : 0 < s.backends.length := List.length_pos.mpr hne
  rcases getNextPeer_spec s hN with ⟨d, _, hal, _, _⟩ | ⟨_, heq⟩
  · obtain ⟨b, hb, hbal⟩ := aliveAt_true_iff.mp hal
    rw [hdead b (List.getElem?_mem hb)] at hbal
    exact Bool.noConfusion hbal
  · exact heq

theorem lowestLoop_lt :
    ∀ (rest : List Backend) (j best : Nat) (lat : Int), best < j →
      lowestLoop rest j best lat < j + rest.length
  | [], j, best, lat, h => by simpa [lowestLoop] using h
  | server :: rest, j, best, lat, h => by
    unfold lowestLoop
    split
    · have := lowestLoop_lt rest (j + 1) j server.Latency (Nat.lt_succ_self j)
      simp only [List.length_cons]
      omega
    · have := lowestLoop_lt rest (j + 1) best lat (Nat.lt_succ_of_lt h)
      simp only [List.length_cons]
      omega

theorem highestLoop_lt :
    ∀ (rest : List Backend) (j best : Nat) (w : F64), best < j →
      highestLoop rest j best w < j + rest.length
  | [], j, best, w, h => by simpa [highestLoop] using h
  | server :: rest, j, best, w, h => by
    unfold highestLoop
    split
    · have := highestLoop_lt rest (j + 1) j server.Weight (Nat.lt_succ_self j)
      simp only [List.length_cons]
      omega
    · have := highestLoop_lt rest (j + 1) best w (Nat.lt_succ_of_lt h)
      simp only [List.length_cons]
      omega

theorem getLowestLatency_in_pool (s : ServerPool) (hne : s.backends ≠ []) :
    ∃ idx peer, s.GetLowestLatency = Selection.peer idx ∧ s.backends[idx]? = some peer := by
  cases hbs : s.backends with
  | nil => exact absurd hbs hne
  | cons first rest =>
    have hlt := lowestLoop_lt rest 1 0 first.Latency Nat.zero_lt_one
    have hlt2 : lowestLoop rest 1 0 first.Latency < (first :: rest).length := by
      simp only [List.length_cons]
      omega
    exact ⟨_, (first :: rest)[lowestLoop rest 1 0 first.Latency],
      by simp [ServerPool.GetLowestLatency, hbs], List.getElem?_eq_getElem hlt2⟩

theorem getHighestWeight_in_pool (s : ServerPool) (hne : s.backends ≠ []) :
    ∃ idx peer, s.GetHighestWeight = Selection.peer idx ∧ s.backends[idx]? = some peer := by
  cases hbs : s.backends with
  | nil => exact absurd hbs hne
  | cons first rest =>
    have hlt := highestLoop_lt rest 1 0 first.Weight Nat.zero_lt_one
    have hlt2 : highestLoop rest 1 0 first.Weight < (first :: rest).length := by
      simp only [List.length_cons]
      omega
    exact ⟨_, (first :: rest)[highestLoop rest 1 0 first.Weight],
      by simp [ServerPool.GetHighestWeight, hbs], List.getElem?_eq_getElem hlt2⟩

/-- C7 (amended): on a non-empty pool whose backends are all unhealthy and for
a request with attempts at most 3, `lb` under the default round-robin policy
ends in REJECTED (service unavailable) without a panic; under least-time and
weighted-round-robin it does not panic either but does not reject: it selects
the backend of least latency, respectively highest weight, although that
backend is unhealthy, and forwards to it, or abandons the request when the
tracked count of that backend exceeds its limit. -/
theorem lb_all_unhealthy (algorithm : String) (r : Context) (st : State)
    (hne : st.serverPool.backends ≠ [])
    (hdead : ∀ b : Backend, b ∈ st.serverPool.backends → b.Alive = false)
    (hatt : GetAttemptsFromContext r ≤ 3) :
    (policyOf algorithm = Policy.roundRobin →
      (lb algorithm r st).1 = Outcome.rejected) ∧
    (policyOf algorithm = Policy.leastTime →
      ∃ idx peer, st.serverPool.GetLowestLatency = Selection.peer idx ∧
        st.serverPool.backends[idx]? = some peer ∧ peer.Alive = false ∧
        (lb algorithm r st).1 =
          if st.internalConnections.count peer.URL > peer.Connections then
            Outcome.abandoned idx
          else Outcome.forwarded idx) ∧
    (policyOf algorithm = Policy.weightedRoundRobin →
      ∃ idx peer, st.serverPool.GetHighestWeight = Selection.peer idx ∧
        st.serverPool.backends[idx]? = some peer ∧ peer.Alive = false ∧
        (lb algorithm r st).1 =
          if st.internalConnections.count peer.URL > peer.Connections then
            Outcome.abandoned idx
          else Outcome.forwarded idx) := by
  have hnot : ¬ GetAttemptsFromContext r > 3 := not_lt.mpr hatt
  refine ⟨?_, ?_, ?_⟩
  · intro hp
    simp [lb, hnot, hp, selectPeer, getNextPeer_all_dead st.serverPool hne hdead]
  · intro hp
    obtain ⟨idx, peer, hsel, hpeer⟩ := getLowestLatency_in_pool st.serverPool hne
    refine ⟨idx, peer, hsel, hpeer, hdead peer (List.getElem?_mem hpeer), ?_⟩
    simp only [lb, hnot, hp, selectPeer, hsel, if_false, admission, hpeer]
    by_cases hover : st.internalConnections.count peer.URL > peer.Connections
    · simp only [hover, if_true]
    · simp only [hover, if_false]
  · intro hp
    obtain ⟨idx, peer, hsel, hpeer⟩ := getHighestWeight_in_pool st.serverPool hne
    refine ⟨idx, peer, hsel, hpeer, hdead peer (List.getElem?_mem hpeer), ?_⟩
    simp only [lb, hnot, hp, selectPeer, hsel, if_false, admission, hpeer]
    by_cases hover : st.internalConnections.count peer.URL > peer.Connections
    · simp only [hover, if_true]
    · simp only [hover, if_false]

/-- C7 (amended), at the pool A, B, C with every backend unhealthy and a fresh
request under the default policy: the request is rejected. -/
theorem lb_all_unhealthy_witness :
    (stateABC false false false 0).serverPool.backends ≠ [] ∧
    (∀ b : Backend, b ∈ (stateABC false false false 0).serverPool.backends →
      b.Alive = false) ∧
    GetAttemptsFromContext freshContext ≤ 3 ∧
    (lb "" freshContext (stateABC false false false 0)).1 = Outcome.rejected :=
  ⟨by decide, by decide, by decide,
    (lb_all_unhealthy "" freshContext (stateABC false false false 0) (by decide) (by decide)
      (by decide)).1 (by decide)⟩

/-- C7 fails at the pool A, B, C with every backend unhealthy and a fresh
request: under least-time the request is forwarded to the unhealthy backend
B, under weighted-round-robin likewise, and under connection-per-time the nil
peer is dereferenced and the handler panics. -/
theorem lb_forwards_to_unhealthy_counterexample :
    (∀ b : Backend, b ∈ (stateABC false false false 0).serverPool.backends →
      b.Alive = false) ∧
    (lb "least-time" freshContext (stateABC false false false 0)).1 = Outcome.forwarded 1 ∧
    (lb "weighted-round-robin" freshContext (stateABC false false false 0)).1
      = Outcome.forwarded 1 ∧
    (lb "connection-per-time" freshContext (stateABC false false false 0)).1
      = Outcome.panicked := by
  decide

/-! ## The attempt and retry state machine -/

theorem lb_forwarded_attempts {algorithm : String} {r : Context} {st st1 : State} {idx : Nat}
    (h : lb algorithm r st = (Outcome.forwarded idx, st1)) : GetAttemptsFromContext r ≤ 3 := by
  by_contra hgt
  have hgt2 : GetAttemptsFromContext r > 3 := not_le.mp hgt
  simp [lb, hgt2] at h

theorem getAttempts_withRetry (r : Context) (x : Option Int) :
    GetAttemptsFromContext { attempts := r.attempts, retry := x } = GetAttemptsFromContext r :=
  rfl

theorem getRetry_withRetry (r : Context) (x : Int) :
    GetRetryFromContext { attempts := r.attempts, retry := some x } = x :=
  rfl

theorem getAttempts_withAttempts (r : Context) (x : Int) :
    GetAttemptsFromContext { attempts := some x, retry := r.retry } = x :=
  rfl

theorem getRetry_withAttempts (r : Context) (x : Option Int) :
    GetRetryFromContext { attempts := x, retry := r.retry } = GetRetryFromContext r :=
  rfl

/-- The failing run of a call ends within the depth bound of the call; every
dispatch in it carries attempts between those of the call and 3 and retries
between those of the call and 3; and the request ends in it. -/
theorem failingRun_spec (algorithm : String) :
    ∀ (fuel : Nat) (call : Call) (st : State), call.depth ≤ fuel →
      (∀ idx r, call = Call.errorHandler idx r → GetAttemptsFromContext r ≤ 3) →
      ∃ run, failingRun algorithm fuel call st = some run ∧
        (∀ idx a ρ, Event.dispatched idx a ρ ∈ run.trace →
          call.attempts ≤ a ∧ a ≤ 3 ∧ call.retries ≤ ρ ∧ ρ ≤ max call.retries 3) ∧
        (run.crashed = true → Event.panicked ∈ run.trace) ∧
        run.ended := by
  intro fuel
  induction fuel with
  | zero =>
    intro call st hfuel hvalid
    cases call with
    | lb r => simp [Call.depth] at hfuel
    | errorHandler idx r =>
      have := hvalid idx r rfl
      simp only [Call.depth] at hfuel
      omega
  | succ fuel ih =>
    intro call st hfuel hvalid
    cases call with
    | lb r =>
      cases hlb : lb algorithm r st with
      | mk out st1 =>
        cases out with
        | rejected =>
          refine ⟨{ state := st1, trace := [Event.rejected], crashed := false },
            by simp [failingRun, hlb], ?_, ?_, ?_⟩
          · intro idx a ρ hmem
            simp at hmem
          · intro hcr
            simp at hcr
          · exact Or.inl (by simp)
        | abandoned idx =>
          refine ⟨{ state := st1, trace := [Event.abandoned idx], crashed := false },
            by simp [failingRun, hlb], ?_, ?_, ?_⟩
          · intro i a ρ hmem
            simp at hmem
          · intro hcr
            simp at hcr
          · exact Or.inr (Or.inl ⟨idx, by simp⟩)
        | panicked =>
          refine ⟨{ state := st1, trace := [Event.panicked], crashed := true },
            by simp [failingRun, hlb], ?_, ?_, ?_⟩
          · intro i a ρ hmem
            simp at hmem
          · intro _
            simp
          · exact Or.inr (Or.inr (by simp))
        | forwarded idx =>
          have hatt := lb_forwarded_attempts hlb
          obtain ⟨run, hrun, hdisp, hcr, hend⟩ := ih (Call.errorHandler idx r) st1
            (by simp only [Call.depth] at hfuel ⊢; omega)
            (by
              intro i r2 heq
              cases heq
              exact hatt)
          refine ⟨{ run with
              trace := Event.dispatched idx (GetAttemptsFromContext r) (GetRetryFromContext r)
                :: run.trace },
            by simp [failingRun, hlb, hrun], ?_, ?_, ?_⟩
          · intro i a ρ hmem
            simp only [List.mem_cons, Event.dispatched.injEq] at hmem
            rcases hmem with ⟨_, ha, hr⟩ | hmem
            · subst ha hr
              exact ⟨le_refl _, hatt, le_refl _, le_max_left _ _⟩
            · exact hdisp i a ρ hmem
          · intro hc
            exact List.mem_cons_of_mem _ (hcr hc)
          · rcases hend with h | ⟨j, h⟩ | h
            · exact Or.inl (List.mem_cons_of_mem _ h)
            · exact Or.inr (Or.inl ⟨j, List.mem_cons_of_mem _ h⟩)
            · exact Or.inr (Or.inr (List.mem_cons_of_mem _ h))
    | errorHandler idx r =>
      have hatt := hvalid idx r rfl
      -- the same-backend retry
      obtain ⟨run1, hrun1, hdisp1, hcr1⟩ : ∃ run1 : Run,
          (if GetRetryFromContext r < 3 then
              match failingRun algorithm fuel
                (Call.errorHandler idx { r with retry := some (GetRetryFromContext r + 1) }) st with
              | none => none
              | some run =>
                some { run with
                  trace := Event.dispatched idx
                    (GetAttemptsFromContext { r with retry := some (GetRetryFromContext r + 1) })
                    (GetRetryFromContext { r with retry := some (GetRetryFromContext r + 1) })
                    :: run.trace }
            else some { state := st, trace := [], crashed := false }) = some run1 ∧
          (∀ i a ρ, Event.dispatched i a ρ ∈ run1.trace →
            GetAttemptsFromContext r ≤ a ∧ a ≤ 3 ∧ GetRetryFromContext r ≤ ρ ∧
              ρ ≤ max (GetRetryFromContext r) 3) ∧
          (run1.crashed = true → Event.panicked ∈ run1.trace) := by
        by_cases hρ : GetRetryFromContext r < 3
        · obtain ⟨run, hrun, hdisp, hcr, _⟩ :=
            ih (Call.errorHandler idx { r with retry := some (GetRetryFromContext r + 1) }) st
              (by
                simp only [Call.depth, getAttempts_withRetry, getRetry_withRetry] at hfuel ⊢
                omega)
              (by
                intro i r2 heq
                cases heq
                exact hatt)
          refine ⟨_, by simp only [hρ, hrun, if_true]; rfl, ?_, ?_⟩
          · intro i a ρ hmem
            simp only [List.mem_cons, Event.dispatched.injEq, getAttempts_withRetry,
              getRetry_withRetry] at hmem
            rcases hmem with ⟨_, ha, hr⟩ | hmem
            · subst ha hr
              refine ⟨le_refl _, hatt, by omega, ?_⟩
              rw [le_max_iff]
              right
              omega
            · have h := hdisp i a ρ hmem
              simp only [Call.attempts, Call.retries, getAttempts_withRetry,
                getRetry_withRetry] at h
              refine ⟨h.1, h.2.1, by omega, ?_⟩
              have h4 := h.2.2.2
              rw [le_max_iff] at h4 ⊢
              right
              omega
          · intro hc
            exact List.mem_cons_of_mem _ (hcr hc)
        · refine ⟨_, by simp only [hρ, if_false]; rfl, ?_, ?_⟩
          · intro i a ρ hmem
            simp at hmem
          · intro hc
            simp at hc
      by_cases hc : run1.crashed = true
      · refine ⟨run1, ?_, hdisp1, hcr1, Or.inr (Or.inr (hcr1 hc))⟩
        simp only [failingRun]
        rw [hrun1]
        simp only [hc, if_true]
      · obtain ⟨run2, hrun2, hdisp2, hcr2, hend2⟩ :=
          ih (Call.lb { r with attempts := some (GetAttemptsFromContext r + 1) })
            { run1.state with
              serverPool :=
                run1.state.serverPool.MarkBackendStatus (urlAt run1.state.serverPool idx) false }
            (by
              simp only [Call.depth, getAttempts_withAttempts, getRetry_withAttempts] at hfuel ⊢
              omega)
            (by
              intro i r2 heq
              cases heq)
        refine ⟨{ run2 with trace := run1.trace ++ run2.trace }, ?_, ?_, ?_, ?_⟩
        · simp only [failingRun]
          rw [hrun1]
          simp only [hc, hrun2]
          rfl
        · intro i a ρ hmem
          simp only [List.mem_append] at hmem
          rcases hmem with hmem | hmem
          · exact hdisp1 i a ρ hmem
          · have h := hdisp2 i a ρ hmem
            simp only [Call.attempts, Call.retries, getAttempts_withAttempts,
              getRetry_withAttempts] at h
            exact ⟨by have := h.1; simp only [Call.attempts]; omega, h.2.1, h.2.2.1, h.2.2.2⟩
        · intro hc2
          exact List.mem_append_right _ (hcr2 hc2)
        · rcases hend2 with h | ⟨j, h⟩ | h
          · exact Or.inl (List.mem_append_right _ h)
          · exact Or.inr (Or.inl ⟨j, List.mem_append_right _ h⟩)
          · exact Or.inr (Or.inr (List.mem_append_right _ h))

/-- C3 fails at five healthy backends under the default policy: the first
rejection is written after dispatches to three distinct backends (1, 2 and 3,
at attempts 1, 2 and 3) although backends 4 and 0 are still healthy, and the
handlers then go on to dispatch to backends 4 and 0 as well, so that one
request is dispatched to five distinct backends. -/
theorem failing_request_counterexample :
    (failingRun "" 10 (Call.lb freshContext) stateFive).map Run.trace =
      some
        [ Event.dispatched 1 1 0, Event.dispatched 1 1 1, Event.dispatched 1 1 2,
          Event.dispatched 1 1 3, Event.dispatched 2 2 3, Event.dispatched 3 3 3,
          Event.rejected,
          Event.dispatched 4 2 2, Event.dispatched 4 2 3, Event.dispatched 0 3 3,
          Event.rejected, Event.rejected, Event.rejected, Event.rejected ] := by
  decide

/-! ## Connection-per-time: the admission check -/

theorem mapGet_mapPut (key : String) (value : Int) :
    ∀ (m : List (String × Int)) (k : String),
      mapGet (mapPut m key value) k = if k = key then value else mapGet m k
  | [], k => by
    by_cases h : k = key
    · simp [mapPut, mapGet, h]
    · have h2 : ¬ key = k := fun e => h e.symm
      simp [mapPut, mapGet, h, h2]
  | (k0, v0) :: m, k => by
    by_cases h0 : k0 = key
    · by_cases h : k = key
      · simp [mapPut, mapGet, h0, h]
      · have h2 : ¬ key = k := fun e => h e.symm
        simp [mapPut, mapGet, h0, h, h2]
    · by_cases h : k = key
      · have ih := mapGet_mapPut key value m k
        simp [mapPut, mapGet, h0, h] at ih ⊢
        exact ih
      · have ih := mapGet_mapPut key value m k
        simp only [h, if_false] at ih
        simp only [mapPut, h0, if_false, mapGet, ih, h]

theorem wrapInt_eq_self {x : Int} (hlo : -2 ^ 63 ≤ x) (hhi : x < 2 ^ 63) : wrapInt x = x := by
  unfold wrapInt
  rw [Int.emod_eq_of_lt (by omega) (by omega)]
  omega

theorem wrapInt_lt (x : Int) : wrapInt x < 2 ^ 63 := by
  unfold wrapInt
  have := Int.emod_lt_of_pos (x + 2 ^ 63) (show (0 : Int) < 2 ^ 64 by norm_num)
  omega

theorem count_increaseConnection (ic : InternalConnections) (key k : String) :
    (ic.IncreaseConnection key).count k
      = if k = key then wrapInt (ic.count key + 1) else ic.count k := by
  simp only [InternalConnections.IncreaseConnection, InternalConnections.count]
  exact mapGet_mapPut key _ _ k

theorem aliveAt_update_setAlive_false (s : ServerPool) (idx : Nat) :
    (s.update idx (fun b => b.SetAlive false)).aliveAt idx = false := by
  unfold ServerPool.update
  cases h : s.backends[idx]? with
  | none => simp [ServerPool.aliveAt, h]
  | some b =>
    have hlt : idx < s.backends.length := by
      by_contra hge
      rw [List.getElem?_eq_none (Nat.le_of_not_lt hge)] at h
      cases h
    simp [ServerPool.aliveAt, hlt, Backend.SetAlive, Backend.IsActive]

/-- `lb` under connection-per-time: the request is rejected at the ceiling,
or the selection panics, or an alive backend is selected, its tracked count is
increased and the admission check decides. -/
theorem lb_connectionPerTime_cases (r : Context) (st : State) :
    lb "connection-per-time" r st = (Outcome.rejected, st) ∨
    (∃ pool, lb "connection-per-time" r st
        = (Outcome.panicked, { st with serverPool := pool })) ∨
    (∃ idx peer, st.serverPool.backends[idx]? = some peer ∧ peer.Alive = true ∧
      st.serverPool.GetNextPeer.2.backends[idx]? = some peer ∧
      lb "connection-per-time" r st =
        if (st.internalConnections.IncreaseConnection peer.URL).count peer.URL
            > peer.Connections then
          (Outcome.abandoned idx,
            { serverPool := st.serverPool.GetNextPeer.2.update idx (fun b => b.SetAlive false),
              internalConnections := st.internalConnections.IncreaseConnection peer.URL })
        else
          (Outcome.forwarded idx,
            { serverPool := st.serverPool.GetNextPeer.2,
              internalConnections := st.internalConnections.IncreaseConnection peer.URL })) := by
  have hpol : policyOf "connection-per-time" = Policy.connectionPerTime := by decide
  by_cases hgt : GetAttemptsFromContext r > 3
  · left
    simp [lb, hgt]
  · right
    have hbk := getNextPeer_backends st.serverPool
    cases hsel : st.serverPool.GetNextPeer.1 with
    | panic =>
      left
      exact ⟨st.serverPool.GetNextPeer.2, by simp [lb, hgt, hpol, selectPeer, hsel]⟩
    | null =>
      left
      exact ⟨st.serverPool.GetNextPeer.2, by simp [lb, hgt, hpol, selectPeer, hsel]⟩
    | peer idx =>
      have halive : st.serverPool.aliveAt idx = true := by
        rcases Nat.eq_zero_or_pos st.serverPool.backends.length with h0 | hN
        · simp [ServerPool.GetNextPeer, ServerPool.NextIndex, h0] at hsel
        · rcases getNextPeer_spec st.serverPool hN with ⟨d, _, hal, _, heq⟩ | ⟨_, heq⟩
          · rw [heq] at hsel
            cases hsel
            exact hal
          · rw [heq] at hsel
            cases hsel
      obtain ⟨peer, hpeer, hpal⟩ := aliveAt_true_iff.mp halive
      have hpeer2 : st.serverPool.GetNextPeer.2.backends[idx]? = some peer := by
        rw [hbk]
        exact hpeer
      right
      refine ⟨idx, peer, hpeer, hpal, hpeer2, ?_⟩
      simp only [lb, hgt, if_false, hpol, selectPeer, hsel, hpeer2, admission]

theorem tracks_of_keepsStatic {i : Nat} {b : Backend} {c c2 : Int} {st st2 : State}
    (hk : List.Forall₂ KeepsStatic st.serverPool.backends st2.serverPool.backends)
    (hc : st2.internalConnections.count b.URL = c2) (h : Tracks i b c st) :
    Tracks i b c2 st2 := by
  obtain ⟨⟨b1, hb1, hurl, hlim⟩, huniq, _⟩ := h
  refine ⟨?_, ?_, hc⟩
  · obtain ⟨b3, hb3, hs⟩ := forall₂_getElem? hk i b1 hb1
    exact ⟨b3, hb3, hs.1.trans hurl, hs.2.trans hlim⟩
  · intro j b2 hb2 hu
    obtain ⟨b0, hb0, hs⟩ := forall₂_getElem?_rev hk j b2 hb2
    exact huniq j b0 hb0 (hs.1.symm.trans hu)

theorem lb_keepsStatic (algorithm : String) (r : Context) (st : State) :
    List.Forall₂ KeepsStatic st.serverPool.backends
      (lb algorithm r st).2.serverPool.backends :=
  (lb_keepsDown algorithm r st).imp (fun _ _ h => keepsDown_static h)

/-- One step under connection-per-time: the tracked count of the backend at
`i` grows by one exactly when the step selects that backend (as long as the
count stays below `2 ^ 63`), and the selection is forwarded while the new count
is within the limit and abandoned, with the backend marked unhealthy, once it
exceeds the limit. -/
theorem step_tracks (step : Step) (st : State) (i : Nat) (b : Backend) (c : Int)
    (hlo : 0 ≤ c) (h : Tracks i b c st) :
    (selects i (step.apply "connection-per-time" st) = false →
      Tracks i b c (step.apply "connection-per-time" st).2) ∧
    (selects i (step.apply "connection-per-time" st) = true → c + 1 < 2 ^ 63 →
      Tracks i b (c + 1) (step.apply "connection-per-time" st).2 ∧
      (c + 1 ≤ b.Connections →
        (step.apply "connection-per-time" st).1 = some (Outcome.forwarded i) ∧
        (step.apply "connection-per-time" st).2.serverPool.aliveAt i = true) ∧
      (b.Connections < c + 1 →
        (step.apply "connection-per-time" st).1 = some (Outcome.abandoned i) ∧
        (step.apply "connection-per-time" st).2.serverPool.aliveAt i = false)) := by
  cases step with
  | forwardFailed url =>
    have hk : List.Forall₂ KeepsStatic st.serverPool.backends
        (markFirst url false st.serverPool.backends) :=
      (markFirst_keepsDown url _).imp (fun _ _ h => keepsDown_static h)
    refine ⟨fun _ => tracks_of_keepsStatic hk h.2.2 h, ?_⟩
    intro hsel
    simp [selects, Step.apply] at hsel
  | healthCheck dials =>
    have hk := healthCheckLoop_keepsStatic st.serverPool.backends dials
    refine ⟨fun _ => tracks_of_keepsStatic hk h.2.2 h, ?_⟩
    intro hsel
    simp [selects, Step.apply] at hsel
  | request r =>
    have hk := lb_keepsStatic "connection-per-time" r st
    simp only [Step.apply]
    rcases lb_connectionPerTime_cases r st with
      heq | ⟨pool, heq⟩ | ⟨idx, peer, hpeer, hal, hpeer2, heq⟩
    · refine ⟨fun _ => tracks_of_keepsStatic hk (by rw [heq]; exact h.2.2) h, ?_⟩
      intro hsel
      simp [selects, heq] at hsel
    · refine ⟨fun _ => tracks_of_keepsStatic hk (by rw [heq]; exact h.2.2) h, ?_⟩
      intro hsel
      simp [selects, heq] at hsel
    · have hconn : (lb "connection-per-time" r st).2.internalConnections
          = st.internalConnections.IncreaseConnection peer.URL := by
        rw [heq]
        split <;> rfl
      obtain ⟨⟨b1, hb1, hurl, hlim⟩, huniq, hcount⟩ := h
      by_cases hidx : idx = i
      · subst hidx
        have hpb : peer = b1 := Option.some.inj (hpeer.symm.trans hb1)
        subst hpb
        have hselected : selects idx (some (lb "connection-per-time" r st).1,
            (lb "connection-per-time" r st).2) = true := by
          rw [heq]
          split <;> simp [selects]
        refine ⟨fun hsel => ?_, fun _ hhi => ?_⟩
        · rw [hselected] at hsel
          exact Bool.noConfusion hsel
        · have hcnt : (st.internalConnections.IncreaseConnection peer.URL).count peer.URL
              = c + 1 := by
            rw [count_increaseConnection, if_pos rfl, hurl, hcount]
            exact wrapInt_eq_self (by omega) hhi
          have htr : Tracks idx b (c + 1) (lb "connection-per-time" r st).2 := by
            refine tracks_of_keepsStatic hk ?_ ⟨⟨peer, hb1, hurl, hlim⟩, huniq, hcount⟩
            rw [hconn, ← hurl, hcnt]
          rw [hcnt, hlim] at heq
          by_cases hover : c + 1 > b.Connections
          · rw [if_pos hover] at heq
            refine ⟨htr, fun hle => ?_, fun _ => ?_⟩
            · omega
            · rw [heq]
              exact ⟨rfl, aliveAt_update_setAlive_false _ _⟩
          · rw [if_neg hover] at heq
            refine ⟨htr, fun _ => ?_, fun hlt => ?_⟩
            · rw [heq]
              refine ⟨rfl, ?_⟩
              rw [aliveAt_of_getElem? hpeer2]
              exact hal
            · omega
      · have hne : ¬ b.URL = peer.URL := by
          intro hu
          exact hidx (huniq idx peer hpeer hu.symm)
        refine ⟨fun _ => ?_, fun hsel => ?_⟩
        · refine tracks_of_keepsStatic hk ?_ ⟨⟨b1, hb1, hurl, hlim⟩, huniq, hcount⟩
          rw [hconn, count_increaseConnection, if_neg hne, hcount]
        · rw [heq] at hsel
          split at hsel <;> simp [selects, hidx] at hsel

/-- The selections of the backend at `i` along a run under connection-per-time
from a state that tracks the count `c` for it: the selection that brings the
count to `c + k`, below `2 ^ 63`, is forwarded when `c + k` is within the limit
and abandoned, with the backend marked unhealthy, when `c + k` exceeds it. -/
theorem runSteps_tracks (i : Nat) (b : Backend) :
    ∀ (steps : List Step) (st : State) (c : Int), 0 ≤ c → Tracks i b c st →
      ∀ (p : Nat) (res : Option Outcome × State),
        (runSteps "connection-per-time" steps st)[p]? = some res → selects i res = true →
        c + (((runSteps "connection-per-time" steps st).take (p + 1)).countP (selects i) : Nat)
            < 2 ^ 63 →
        (c + (((runSteps "connection-per-time" steps st).take (p + 1)).countP (selects i) : Nat)
            ≤ b.Connections →
          res.1 = some (Outcome.forwarded i) ∧ res.2.serverPool.aliveAt i = true) ∧
        (b.Connections
            < c + (((runSteps "connection-per-time" steps st).take (p + 1)).countP (selects i)
                : Nat) →
          res.1 = some (Outcome.abandoned i) ∧ res.2.serverPool.aliveAt i = false) := by
  intro steps
  induction steps with
  | nil =>
    intro st c _ _ p res hp _
    simp [runSteps] at hp
  | cons step rest ih =>
    intro st c hlo htr p res hp hsel
    have hstep := step_tracks step st i b c hlo htr
    cases p with
    | zero =>
      simp only [runSteps, List.getElem?_cons_zero, Option.some.injEq] at hp
      subst hp
      simp only [runSteps, Nat.zero_add, List.take_succ_cons, List.take_zero,
        List.countP_cons, List.countP_nil, hsel, if_true, Nat.cast_one]
      intro hhi
      obtain ⟨_, hfwd, habd⟩ := hstep.2 hsel hhi
      exact ⟨hfwd, habd⟩
    | succ p =>
      simp only [runSteps, List.getElem?_cons_succ] at hp
      simp only [runSteps, List.take_succ_cons, List.countP_cons]
      by_cases hs0 : selects i (step.apply "connection-per-time" st) = true
      · simp only [hs0, if_true, Nat.cast_add, Nat.cast_one]
        intro hhi
        have h := ih _ (c + 1) (by omega) (hstep.2 hs0 (by omega)).1 p res hp hsel (by omega)
        rw [show c + 1 + ((List.take (p + 1)
            (runSteps "connection-per-time" rest (step.apply "connection-per-time" st).2)).countP
              (selects i) : Nat)
          = c + (((List.take (p + 1)
            (runSteps "connection-per-time" rest (step.apply "connection-per-time" st).2)).countP
              (selects i) : Nat) + 1) by omega] at h
        exact h
      · have hs1 : selects i (step.apply "connection-per-time" st) = false := by
          simpa using hs0
        simp only [hs1, Bool.false_eq_true, if_false, Nat.add_zero]
        intro hhi
        exact ih _ c hlo (hstep.1 hs1) p res hp hsel hhi

/-- `lb` under connection-per-time on the single backend whose limit is the
largest `int`: whatever the tracked count, the request is forwarded, since the
incremented count wraps instead of exceeding the limit. -/
theorem lb_stateMax (cursor : Nat) (count : Int) :
    lb "connection-per-time" freshContext (stateMax cursor count)
      = (Outcome.forwarded 0, stateMax ((cursor + 1) % 2 ^ 64) (wrapInt (count + 1))) := by
  have hpol : policyOf "connection-per-time" = Policy.connectionPerTime := by decide
  have hatt : ¬ GetAttemptsFromContext freshContext > 3 := by decide
  have hlt := wrapInt_lt (count + 1)
  have hnot : ¬ wrapInt (count + 1) > 9223372036854775807 := by omega
  simp [lb, hatt, hpol, selectPeer, ServerPool.GetNextPeer, ServerPool.NextIndex, scanPeers,
    stateMax, configured, Backend.IsActive, Nat.mod_one, admission,
    InternalConnections.IncreaseConnection, InternalConnections.count, mapGet, mapPut, hnot]

theorem runSteps_stateMax (n : Nat) :
    ∀ (cursor : Nat) (count : Int),
      (runSteps "connection-per-time" (List.replicate n (Step.request freshContext))
          (stateMax cursor count)).map Prod.fst
        = List.replicate n (some (Outcome.forwarded 0)) := by
  induction n with
  | zero =>
    intro cursor count
    rfl
  | succ n ih =>
    intro cursor count
    have h := ih ((cursor + 1) % 2 ^ 64) (wrapInt (count + 1))
    simp only [List.replicate_succ, runSteps, Step.apply, lb_stateMax, List.map_cons, h]

/-- C9 (amended): under the connection-per-time policy and serial handling,
for a backend whose tracked count is 0 after a reset and whose URL no other
backend carries, along every serial run without a reset (requests, forwarding
failures and health checks in any order), the `k`-th selection of that backend,
for `k` below `2 ^ 63`, is forwarded and leaves it healthy while `k` is at most
its connection limit `L`, and is abandoned without forwarding, with the backend
marked unhealthy, once `k` exceeds `L`; so for `L` below `2 ^ 63 - 1` the first
`L` selections are forwarded and the selection number `L + 1` is abandoned. -/
theorem connection_limit_selections (st : State) (steps : List Step) (i : Nat) (b : Backend)
    (hb : st.serverPool.backends[i]? = some b)
    (huniq : ∀ (j : Nat) (b2 : Backend),
      st.serverPool.backends[j]? = some b2 → b2.URL = b.URL → j = i)
    (h0 : st.internalConnections.count b.URL = 0)
    (p : Nat) (res : Option Outcome × State)
    (hp : (runSteps "connection-per-time" steps st)[p]? = some res)
    (hsel : selects i res = true)
    (hk : ((((runSteps "connection-per-time" steps st).take (p + 1)).countP (selects i) : Nat)
        : Int) < 2 ^ 63) :
    (((((runSteps "connection-per-time" steps st).take (p + 1)).countP (selects i) : Nat) : Int)
        ≤ b.Connections →
      res.1 = some (Outcome.forwarded i) ∧ res.2.serverPool.aliveAt i = true) ∧
    (b.Connections
        < ((((runSteps "connection-per-time" steps st).take (p + 1)).countP (selects i) : Nat)
            : Int) →
      res.1 = some (Outcome.abandoned i) ∧ res.2.serverPool.aliveAt i = false) := by
  have h := runSteps_tracks i b steps st 0 (le_refl 0) ⟨⟨b, hb, rfl, rfl⟩, huniq, h0⟩ p res hp
    hsel (by simpa using hk)
  simpa using h

/-- C9 (amended), at limit 2: with A the only healthy backend and every count
at zero, three requests select A; the first two are forwarded and the third is
abandoned with A marked unhealthy. -/
theorem connection_limit_selections_witness :
    (stateABC true false false 0).internalConnections.count "http://a:8081" = 0 ∧
    ((runSteps "connection-per-time"
        [Step.request freshContext, Step.request freshContext, Step.request freshContext]
        (stateABC true false false 0)).map Prod.fst
      = [some (Outcome.forwarded 0), some (Outcome.forwarded 0), some (Outcome.abandoned 0)]) ∧
    ∃ res,
      (runSteps "connection-per-time"
        [Step.request freshContext, Step.request freshContext, Step.request freshContext]
        (stateABC true false false 0))[2]? = some res ∧
      selects 0 res = true ∧ res.1 = some (Outcome.abandoned 0) ∧
      res.2.serverPool.aliveAt 0 = false := by
  have hp : (runSteps "connection-per-time"
      [Step.request freshContext, Step.request freshContext, Step.request freshContext]
      (stateABC true false false 0))[2]?
      = some ((Step.request freshContext).apply "connection-per-time"
          ((Step.request freshContext).apply "connection-per-time"
            ((Step.request freshContext).apply "connection-per-time"
              (stateABC true false false 0)).2).2) := rfl
  refine ⟨by decide, by decide, _, hp, by decide, ?_⟩
  refine (connection_limit_selections (stateABC true false false 0)
    [Step.request freshContext, Step.request freshContext, Step.request freshContext] 0
    { URL := "http://a:8081", Alive := true, Latency := 300, Weight := F64.finite 1,
      Connections := 2 }
    (by decide) ?_ (by decide) 2 _ hp (by decide) (by decide)).2 (by decide)
  intro j b2 hj hu
  match j, hj with
  | 0, _ => rfl
  | 1, hj =>
    simp [stateABC, poolABC] at hj
    subst hj
    simp at hu
  | 2, hj =>
    simp [stateABC, poolABC] at hj
    subst hj
    simp at hu
  | j + 3, hj => simp [stateABC, poolABC] at hj

/-- C9 fails in two ways.  When two configured backends share a URL the count
is shared, since it is tracked by URL: with the same host listed twice at
limit 2 and every count at zero, three requests select entry 1, entry 0 and
entry 1 again, and this second selection of entry 1 is already abandoned.
And when the limit `L` is the largest `int`, `2 ^ 63 - 1`, the count wraps
instead of exceeding it: of `L + 1` requests on the single backend with that
limit every one is forwarded, the selection number `L + 1` included. -/
theorem tracked_count_counterexample :
    stateTwins.serverPool.backends.map Backend.Connections = [2, 2] ∧
    stateTwins.internalConnections.count "http://a:8081" = 0 ∧
    (runSteps "connection-per-time"
        [Step.request freshContext, Step.request freshContext, Step.request freshContext]
        stateTwins).map Prod.fst
      = [some (Outcome.forwarded 1), some (Outcome.forwarded 0), some (Outcome.abandoned 1)] ∧
    (stateMax 0 0).serverPool.backends.map Backend.Connections = [2 ^ 63 - 1] ∧
    (stateMax 0 0).internalConnections.count "http://a:8081" = 0 ∧
    (runSteps "connection-per-time"
        (List.replicate 9223372036854775808 (Step.request freshContext))
        (stateMax 0 0)).map Prod.fst
      = List.replicate 9223372036854775808 (some (Outcome.forwarded 0)) :=
  ⟨by decide, by decide, by decide, by decide, by decide,
    runSteps_stateMax 9223372036854775808 0 0⟩

/-! ## The first rejection of a failing request -/

theorem getNextPeer_finds (s : ServerPool) (hh : 0 < healthyCount s) :
    ∃ k peer, s.GetNextPeer.1 = Selection.peer k ∧ s.backends[k]? = some peer ∧
      peer.Alive = true ∧ s.GetNextPeer.2.backends = s.backends := by
  obtain ⟨b, hmem, hbal⟩ := List.countP_pos_iff.mp hh
  have hN : 0 < s.backends.length := List.length_pos_of_mem hmem
  rcases getNextPeer_spec s hN with ⟨d, _, hal, _, heq⟩ | ⟨hdead, _⟩
  · obtain ⟨peer, hpeer, hpal⟩ := aliveAt_true_iff.mp hal
    exact ⟨_, peer, by rw [heq], hpeer, hpal, getNextPeer_backends s⟩
  · obtain ⟨j, hj, hjb⟩ := List.getElem_of_mem hmem
    have h1 : s.aliveAt j = true :=
      aliveAt_true_iff.mpr ⟨b, by rw [List.getElem?_eq_getElem hj, hjb], hbal⟩
    rw [hdead j hj] at h1
    exact Bool.noConfusion h1

theorem admission_forwards (st : State) (k : Nat) (peer : Backend)
    (hpeer : st.serverPool.backends[k]? = some peer)
    (hc : st.internalConnections.count peer.URL ≤ peer.Connections) :
    admission st k = (Outcome.forwarded k, st) := by
  have hnot : ¬ st.internalConnections.count peer.URL > peer.Connections := not_lt.mpr hc
  simp only [admission, hpeer, hnot, if_false]

theorem room_mono {policy : Policy} {n : Int} {st : State}
    (h : Room policy (n + 1) st) : Room policy n st := by
  intro b hb
  obtain ⟨h1, h2⟩ := h b hb
  refine ⟨h1, fun hp => ?_⟩
  obtain ⟨h3, h4, h5⟩ := h2 hp
  exact ⟨h3, by omega, h5⟩

/-- With a healthy backend in the pool and room under the limits, `lb` with at
most 3 attempts forwards the request; the backends stay as they are, one unit of
room is used, and under the round-robin policies the backend is healthy. -/
theorem lb_forwards (algorithm : String) (r : Context) (st : State) (n : Int) (hn : 0 ≤ n)
    (hatt : GetAttemptsFromContext r ≤ 3) (hh : 0 < healthyCount st.serverPool)
    (hroom : Room (policyOf algorithm) (n + 1) st) :
    ∃ idx peer st1, lb algorithm r st = (Outcome.forwarded idx, st1) ∧
      st.serverPool.backends[idx]? = some peer ∧
      st1.serverPool.backends = st.serverPool.backends ∧
      Room (policyOf algorithm) n st1 ∧
      (policyOf algorithm = Policy.roundRobin ∨ policyOf algorithm = Policy.connectionPerTime →
        peer.Alive = true) := by
  have hnot : ¬ GetAttemptsFromContext r > 3 := not_lt.mpr hatt
  have hne : st.serverPool.backends ≠ [] := by
    obtain ⟨b, hmem, _⟩ := List.countP_pos_iff.mp hh
    exact List.ne_nil_of_mem hmem
  cases hp : policyOf algorithm with
  | leastTime =>
    rw [hp] at hroom
    obtain ⟨idx, peer, hsel, hpeer⟩ := getLowestLatency_in_pool st.serverPool hne
    refine ⟨idx, peer, st, ?_, hpeer, rfl, room_mono hroom, ?_⟩
    · simp only [lb, hnot, if_false, hp, selectPeer, hsel]
      exact admission_forwards st idx peer hpeer (hroom peer (List.getElem?_mem hpeer)).1
    · intro h
      rcases h with h | h <;> cases h
  | weightedRoundRobin =>
    rw [hp] at hroom
    obtain ⟨idx, peer, hsel, hpeer⟩ := getHighestWeight_in_pool st.serverPool hne
    refine ⟨idx, peer, st, ?_, hpeer, rfl, room_mono hroom, ?_⟩
    · simp only [lb, hnot, if_false, hp, selectPeer, hsel]
      exact admission_forwards st idx peer hpeer (hroom peer (List.getElem?_mem hpeer)).1
    · intro h
      rcases h with h | h <;> cases h
  | roundRobin =>
    rw [hp] at hroom
    obtain ⟨k, peer, hsel, hpeer, hal, hbk⟩ := getNextPeer_finds st.serverPool hh
    refine ⟨k, peer, { st with serverPool := st.serverPool.GetNextPeer.2 }, ?_, hpeer, hbk, ?_,
      fun _ => hal⟩
    · simp only [lb, hnot, if_false, hp, selectPeer, hsel]
      exact admission_forwards _ k peer (by rw [hbk]; exact hpeer)
        (hroom peer (List.getElem?_mem hpeer)).1
    · intro b hb
      have hb2 : b ∈ st.serverPool.backends := by
        have : b ∈ st.serverPool.GetNextPeer.2.backends := hb
        rwa [hbk] at this
      obtain ⟨h1, _⟩ := hroom b hb2
      exact ⟨h1, fun h => by cases h⟩
  | connectionPerTime =>
    rw [hp] at hroom
    obtain ⟨k, peer, hsel, hpeer, hal, hbk⟩ := getNextPeer_finds st.serverPool hh
    have hpeer2 : st.serverPool.GetNextPeer.2.backends[k]? = some peer := by
      rw [hbk]
      exact hpeer
    obtain ⟨_, hp2⟩ := hroom peer (List.getElem?_mem hpeer)
    obtain ⟨hp0, hpn, hpL⟩ := hp2 rfl
    have hwrap : wrapInt (st.internalConnections.count peer.URL + 1)
        = st.internalConnections.count peer.URL + 1 :=
      wrapInt_eq_self (by omega) (by omega)
    have hcount : ∀ u : String,
        (st.internalConnections.IncreaseConnection peer.URL).count u
          = if u = peer.URL then st.internalConnections.count peer.URL + 1
            else st.internalConnections.count u := by
      intro u
      rw [count_increaseConnection, hwrap]
    refine ⟨k, peer,
      { serverPool := st.serverPool.GetNextPeer.2,
        internalConnections := st.internalConnections.IncreaseConnection peer.URL },
      ?_, hpeer, hbk, ?_, fun _ => hal⟩
    · simp only [lb, hnot, if_false, hp, selectPeer, hsel, hpeer2]
      refine admission_forwards _ k peer hpeer2 ?_
      show (st.internalConnections.IncreaseConnection peer.URL).count peer.URL ≤ peer.Connections
      rw [hcount, if_pos rfl]
      omega
    · intro b hb
      have hb2 : b ∈ st.serverPool.backends := by
        have : b ∈ st.serverPool.GetNextPeer.2.backends := hb
        rwa [hbk] at this
      obtain ⟨_, h2⟩ := hroom b hb2
      obtain ⟨h3, h4, h5⟩ := h2 rfl
      show (st.internalConnections.IncreaseConnection peer.URL).count b.URL ≤ b.Connections ∧
        (Policy.connectionPerTime = Policy.connectionPerTime →
          0 ≤ (st.internalConnections.IncreaseConnection peer.URL).count b.URL ∧
          (st.internalConnections.IncreaseConnection peer.URL).count b.URL + n ≤ b.Connections ∧
          b.Connections < 2 ^ 63)
      rw [hcount]
      by_cases hu : b.URL = peer.URL
      · rw [if_pos hu]
        rw [hu] at h3 h4
        exact ⟨by omega, fun _ => ⟨by omega, by omega, h5⟩⟩
      · rw [if_neg hu]
        exact ⟨by omega, fun _ => ⟨h3, by omega, h5⟩⟩

theorem urlAt_of_getElem? {s : ServerPool} {idx : Nat} {b : Backend}
    (h : s.backends[idx]? = some b) : urlAt s idx = b.URL := by
  simp [urlAt, h]

theorem markFirst_countP (url : String) :
    ∀ l : List Backend,
      l.countP Backend.IsActive ≤ (markFirst url false l).countP Backend.IsActive + 1
  | [] => by simp [markFirst]
  | a :: l => by
    unfold markFirst
    by_cases h : a.URL = url
    · rw [if_pos h]
      simp only [List.countP_cons, Backend.SetAlive, Backend.IsActive]
      split <;> simp
    · rw [if_neg h]
      have ih := markFirst_countP url l
      simp only [List.countP_cons]
      omega

theorem markFirst_map_url (url : String) (alive : Bool) :
    ∀ l : List Backend, (markFirst url alive l).map Backend.URL = l.map Backend.URL
  | [] => rfl
  | a :: l => by
    unfold markFirst
    by_cases h : a.URL = url
    · rw [if_pos h]
      rfl
    · rw [if_neg h]
      simp only [List.map_cons, markFirst_map_url url alive l]

/-- With pairwise distinct URLs, `MarkBackendStatus` with the URL of the backend
at `idx` marks that backend. -/
theorem markFirst_dead_at :
    ∀ (l : List Backend) (idx : Nat) (b : Backend), (l.map Backend.URL).Nodup →
      l[idx]? = some b →
      ∃ c, (markFirst b.URL false l)[idx]? = some c ∧ c.Alive = false
  | [], idx, b, _, h => by simp at h
  | a :: l, 0, b, _, h => by
    simp only [List.getElem?_cons_zero, Option.some.injEq] at h
    subst h
    exact ⟨a.SetAlive false, by simp [markFirst], rfl⟩
  | a :: l, idx + 1, b, hnd, h => by
    simp only [List.getElem?_cons_succ] at h
    rw [List.map_cons, List.nodup_cons] at hnd
    have hne : ¬ a.URL = b.URL := by
      intro he
      apply hnd.1
      rw [he]
      exact List.mem_map_of_mem Backend.URL (List.getElem?_mem h)
    obtain ⟨c, hc, hcal⟩ := markFirst_dead_at l idx b hnd.2 h
    exact ⟨c, by simp only [markFirst, hne, if_false, List.getElem?_cons_succ, hc], hcal⟩

theorem room_of_keepsStatic {policy : Policy} {n : Int} {st st2 : State}
    (hk : List.Forall₂ KeepsStatic st.serverPool.backends st2.serverPool.backends)
    (hc : st2.internalConnections = st.internalConnections) (h : Room policy n st) :
    Room policy n st2 := by
  intro c hmem
  obtain ⟨j, hj⟩ := List.mem_iff_getElem?.mp hmem
  obtain ⟨b, hb, hurl, hlim⟩ := forall₂_getElem?_rev hk j c hj
  have := h b (List.getElem?_mem hb)
  rw [hc, hurl, hlim]
  exact this

theorem alive_of_keepsDown {l l2 : List Backend} (hk : List.Forall₂ KeepsDown l l2)
    {idx : Nat} {c : Backend} (hc : l2[idx]? = some c) (hal : c.Alive = true) :
    ∃ b, l[idx]? = some b ∧ b.Alive = true := by
  obtain ⟨b, hb, _, _, hdown⟩ := forall₂_getElem?_rev hk idx c hc
  refine ⟨b, hb, ?_⟩
  cases hba : b.Alive with
  | true => rfl
  | false =>
    rw [hdown hba] at hal
    exact Bool.noConfusion hal

theorem dead_of_keepsDown {l l2 : List Backend} (hk : List.Forall₂ KeepsDown l l2)
    {idx : Nat} {b : Backend} (hb : l[idx]? = some b) (hal : b.Alive = false) :
    ∃ c, l2[idx]? = some c ∧ c.Alive = false := by
  obtain ⟨c, hc, _, _, hdown⟩ := forall₂_getElem? hk idx b hb
  exact ⟨c, hc, hdown hal⟩

theorem run_lb_forwarded {algorithm : String} {fuel : Nat} {r : Context} {st st1 : State}
    {idx : Nat} {run : Run} (hlb : lb algorithm r st = (Outcome.forwarded idx, st1))
    (hrun : failingRun algorithm fuel (Call.lb r) st = some run) :
    ∃ run1, failingRun algorithm (fuel - 1) (Call.errorHandler idx r) st1 = some run1 ∧
      run.trace = Event.dispatched idx (GetAttemptsFromContext r) (GetRetryFromContext r)
        :: run1.trace := by
  cases fuel with
  | zero => simp [failingRun] at hrun
  | succ f =>
    simp only [failingRun, hlb] at hrun
    cases h1 : failingRun algorithm f (Call.errorHandler idx r) st1 with
    | none => simp [h1] at hrun
    | some run1 =>
      simp only [h1, Option.some.injEq] at hrun
      subst hrun
      exact ⟨run1, h1, rfl⟩

theorem run_lb_rejected {algorithm : String} {fuel : Nat} {r : Context} {st st1 : State}
    {run : Run} (hlb : lb algorithm r st = (Outcome.rejected, st1))
    (hrun : failingRun algorithm fuel (Call.lb r) st = some run) :
    run.trace = [Event.rejected] := by
  cases fuel with
  | zero => simp [failingRun] at hrun
  | succ f =>
    simp only [failingRun, hlb, Option.some.injEq] at hrun
    subst hrun
    rfl

theorem run_handler_retry {algorithm : String} {fuel : Nat} {r : Context} {st : State}
    {idx : Nat} {run : Run} (hρ : GetRetryFromContext r < 3)
    (hrun : failingRun algorithm fuel (Call.errorHandler idx r) st = some run) :
    ∃ run1 rest,
      failingRun algorithm (fuel - 1)
        (Call.errorHandler idx { r with retry := some (GetRetryFromContext r + 1) }) st
        = some run1 ∧
      run.trace = Event.dispatched idx (GetAttemptsFromContext r) (GetRetryFromContext r + 1)
        :: (run1.trace ++ rest) := by
  cases fuel with
  | zero => simp [failingRun] at hrun
  | succ f =>
    simp only [failingRun, hρ, if_true] at hrun
    cases h1 : failingRun algorithm f
        (Call.errorHandler idx { r with retry := some (GetRetryFromContext r + 1) }) st with
    | none => simp [h1] at hrun
    | some run1 =>
      simp only [h1, getAttempts_withRetry, getRetry_withRetry] at hrun
      by_cases hc : run1.crashed = true
      · simp only [hc, if_true, Option.some.injEq] at hrun
        subst hrun
        exact ⟨run1, [], h1, by simp⟩
      · simp only [hc, Bool.false_eq_true, if_false] at hrun
        split at hrun
        · cases hrun
        · next run2 _ =>
          simp only [Option.some.injEq] at hrun
          subst hrun
          exact ⟨run1, run2.trace, h1, by simp⟩

theorem run_handler_failover {algorithm : String} {fuel : Nat} {r : Context} {st : State}
    {idx : Nat} {run : Run} (hρ : ¬ GetRetryFromContext r < 3)
    (hrun : failingRun algorithm fuel (Call.errorHandler idx r) st = some run) :
    ∃ run2,
      failingRun algorithm (fuel - 1)
        (Call.lb { r with attempts := some (GetAttemptsFromContext r + 1) })
        { st with
          serverPool := st.serverPool.MarkBackendStatus (urlAt st.serverPool idx) false }
        = some run2 ∧
      run.trace = run2.trace := by
  cases fuel with
  | zero => simp [failingRun] at hrun
  | succ f =>
    simp only [failingRun, hρ, if_false, Bool.false_eq_true] at hrun
    split at hrun
    · cases hrun
    · next run2 h2 =>
      simp only [Option.some.injEq] at hrun
      subst hrun
      exact ⟨run2, h2, by simp⟩

theorem mark_facts (s : State) (idx : Nat) (peer : Backend) (policy : Policy) (n : Int)
    (hpeer : s.serverPool.backends[idx]? = some peer) (hroom : Room policy n s) :
    List.Forall₂ KeepsDown s.serverPool.backends
      (markFirst peer.URL false s.serverPool.backends) ∧
    ({ s with serverPool := s.serverPool.MarkBackendStatus (urlAt s.serverPool idx) false }
        : State).serverPool.backends = markFirst peer.URL false s.serverPool.backends ∧
    healthyCount s.serverPool ≤
      healthyCount
        ({ s with serverPool := s.serverPool.MarkBackendStatus (urlAt s.serverPool idx) false }
          : State).serverPool + 1 ∧
    Room policy n
      { s with serverPool := s.serverPool.MarkBackendStatus (urlAt s.serverPool idx) false } := by
  have hurl := urlAt_of_getElem? hpeer
  have hk := markFirst_keepsDown peer.URL s.serverPool.backends
  refine ⟨hk, by simp only [ServerPool.MarkBackendStatus, hurl], ?_, ?_⟩
  · simp only [healthyCount, ServerPool.MarkBackendStatus, hurl]
    exact markFirst_countP peer.URL s.serverPool.backends
  · have hks : List.Forall₂ KeepsStatic s.serverPool.backends
        ({ s with serverPool := s.serverPool.MarkBackendStatus (urlAt s.serverPool idx) false }
          : State).serverPool.backends := by
      simp only [ServerPool.MarkBackendStatus, hurl]
      exact hk.imp (fun _ _ h => keepsDown_static h)
    exact room_of_keepsStatic hks rfl hroom

/-- C3 (amended): for a request whose every dispatch fails, handled serially
from a state with at least 3 healthy backends and room under the connection
limits, under every policy the state machine of `lb` and the `ErrorHandler`
closures ends, and its events up to the first service-unavailable response are
exactly: the initial dispatch with attempts 1, three retries on the same
backend, a failover dispatch with attempts 2, a failover dispatch with
attempts 3, and the rejection; so the request is first rejected after exactly 3
backend attempts, the initial one plus 2 failovers.  No dispatch ever carries
attempts above 3.  Under the round-robin policies (default and
connection-per-time) the three backends were healthy when the request arrived,
and they are three distinct backends when the URLs are pairwise distinct. -/
theorem failing_request_three_attempts (algorithm : String) (st : State) (fuel : Nat)
    (hfuel : 10 ≤ fuel) (hhealthy : 3 ≤ healthyCount st.serverPool)
    (hroom : Room (policyOf algorithm) 3 st) :
    ∃ run i1 i2 i3 rest,
      failingRun algorithm fuel (Call.lb freshContext) st = some run ∧
      run.trace =
        [ Event.dispatched i1 1 0, Event.dispatched i1 1 1, Event.dispatched i1 1 2,
          Event.dispatched i1 1 3, Event.dispatched i2 2 3, Event.dispatched i3 3 3,
          Event.rejected ] ++ rest ∧
      (∀ idx a ρ, Event.dispatched idx a ρ ∈ run.trace → 1 ≤ a ∧ a ≤ 3 ∧ 0 ≤ ρ ∧ ρ ≤ 3) ∧
      (policyOf algorithm = Policy.roundRobin ∨ policyOf algorithm = Policy.connectionPerTime →
        st.serverPool.aliveAt i1 = true ∧ st.serverPool.aliveAt i2 = true ∧
        st.serverPool.aliveAt i3 = true ∧
        ((st.serverPool.backends.map Backend.URL).Nodup → i1 ≠ i2 ∧ i1 ≠ i3 ∧ i2 ≠ i3)) := by
  obtain ⟨run, hrun, hdisp, _, _⟩ :=
    failingRun_spec algorithm fuel (Call.lb freshContext) st
      (by
        have : (Call.lb freshContext).depth = 10 := by decide
        omega)
      (by
        intro i r heq
        cases heq)
  -- the initial dispatch
  obtain ⟨i1, peer1, s1, hlb1, hpeer1, hbk1, hroom1, hal1⟩ :=
    lb_forwards algorithm freshContext st 2 (by norm_num) (by decide)
      (by omega) (by simpa using hroom)
  obtain ⟨run1, hrun1, ht0⟩ := run_lb_forwarded hlb1 hrun
  -- the three retries on the same backend
  obtain ⟨run2, rest1, hrun2, ht1⟩ := run_handler_retry (by decide) hrun1
  have hrun2n : failingRun algorithm (fuel - 1 - 1)
      (Call.errorHandler i1 { attempts := none, retry := some 1 }) s1 = some run2 := hrun2
  obtain ⟨run3, rest2, hrun3, ht2⟩ := run_handler_retry (by decide) hrun2n
  have hrun3n : failingRun algorithm (fuel - 1 - 1 - 1)
      (Call.errorHandler i1 { attempts := none, retry := some 2 }) s1 = some run3 := hrun3
  obtain ⟨run4, rest3, hrun4, ht3⟩ := run_handler_retry (by decide) hrun3n
  have hrun4n : failingRun algorithm (fuel - 1 - 1 - 1 - 1)
      (Call.errorHandler i1 { attempts := none, retry := some 3 }) s1 = some run4 := hrun4
  -- the first failover
  obtain ⟨run5, hrun5, ht4⟩ := run_handler_failover (by decide) hrun4n
  have hrun5n : failingRun algorithm (fuel - 1 - 1 - 1 - 1 - 1)
      (Call.lb { attempts := some 2, retry := some 3 })
      { s1 with serverPool := s1.serverPool.MarkBackendStatus (urlAt s1.serverPool i1) false }
      = some run5 := hrun5
  clear hrun5
  have hpeer1s : s1.serverPool.backends[i1]? = some peer1 := by
    rw [hbk1]
    exact hpeer1
  obtain ⟨hk1, hm1, hh1, hroomm1⟩ :=
    mark_facts s1 i1 peer1 (policyOf algorithm) 2 hpeer1s hroom1
  generalize ({ s1 with
      serverPool := s1.serverPool.MarkBackendStatus (urlAt s1.serverPool i1) false } : State)
    = m1 at hrun5n hm1 hh1 hroomm1
  have hhs1 : healthyCount s1.serverPool = healthyCount st.serverPool := by
    simp only [healthyCount, hbk1]
  obtain ⟨i2, peer2, s2, hlb2, hpeer2, hbk2, hroom2, hal2⟩ :=
    lb_forwards algorithm { attempts := some 2, retry := some 3 } m1 1 (by norm_num)
      (by decide) (by omega) (by simpa using hroomm1)
  obtain ⟨run6, hrun6, ht5⟩ := run_lb_forwarded hlb2 hrun5n
  -- the second failover
  obtain ⟨run7, hrun7, ht6⟩ := run_handler_failover (by decide) hrun6
  have hrun7n : failingRun algorithm (fuel - 1 - 1 - 1 - 1 - 1 - 1 - 1)
      (Call.lb { attempts := some 3, retry := some 3 })
      { s2 with serverPool := s2.serverPool.MarkBackendStatus (urlAt s2.serverPool i2) false }
      = some run7 := hrun7
  clear hrun7
  have hpeer2s : s2.serverPool.backends[i2]? = some peer2 := by
    rw [hbk2]
    exact hpeer2
  obtain ⟨hk2, hm2, hh2, hroomm2⟩ :=
    mark_facts s2 i2 peer2 (policyOf algorithm) 1 hpeer2s hroom2
  generalize ({ s2 with
      serverPool := s2.serverPool.MarkBackendStatus (urlAt s2.serverPool i2) false } : State)
    = m2 at hrun7n hm2 hh2 hroomm2
  have hhs2 : healthyCount s2.serverPool = healthyCount m1.serverPool := by
    simp only [healthyCount, hbk2]
  obtain ⟨i3, peer3, s3, hlb3, hpeer3, _, _, hal3⟩ :=
    lb_forwards algorithm { attempts := some 3, retry := some 3 } m2 0 (le_refl 0)
      (by decide) (by omega) (by simpa using hroomm2)
  obtain ⟨run8, hrun8, ht7⟩ := run_lb_forwarded hlb3 hrun7n
  -- the entry of `lb` with attempts 4
  obtain ⟨run9, hrun9, ht8⟩ := run_handler_failover (by decide) hrun8
  have hrun9n : failingRun algorithm (fuel - 1 - 1 - 1 - 1 - 1 - 1 - 1 - 1 - 1)
      (Call.lb { attempts := some 4, retry := some 3 })
      { s3 with serverPool := s3.serverPool.MarkBackendStatus (urlAt s3.serverPool i3) false }
      = some run9 := hrun9
  have hlb4 : lb algorithm { attempts := some 4, retry := some 3 }
      { s3 with serverPool := s3.serverPool.MarkBackendStatus (urlAt s3.serverPool i3) false }
      = (Outcome.rejected,
          { s3 with
            serverPool := s3.serverPool.MarkBackendStatus (urlAt s3.serverPool i3) false }) := by
    have hgt : GetAttemptsFromContext { attempts := some 4, retry := some 3 } > 3 := by decide
    simp only [lb, hgt, if_true]
  have ht9 := run_lb_rejected hlb4 hrun9n
  refine ⟨run, i1, i2, i3, rest3 ++ (rest2 ++ rest1), hrun, ?_, ?_, ?_⟩
  · rw [ht0, ht1, ht2, ht3, ht4, ht5, ht6, ht7, ht8, ht9]
    simp [freshContext, GetAttemptsFromContext, GetRetryFromContext]
  · intro idx a ρ hmem
    have h := hdisp idx a ρ hmem
    have h1 : (Call.lb freshContext).attempts = 1 := rfl
    have h2 : (Call.lb freshContext).retries = 0 := rfl
    rw [h1, h2] at h
    exact ⟨h.1, h.2.1, h.2.2.1, by simpa using h.2.2.2⟩
  · intro hp
    have ha1 := hal1 hp
    have ha2 := hal2 hp
    have ha3 := hal3 hp
    rw [hbk1] at hk1 hm1
    rw [hbk2, hm1] at hk2 hm2
    rw [hm1] at hpeer2
    rw [hm2] at hpeer3
    obtain ⟨b2, hb2, hb2al⟩ := alive_of_keepsDown hk1 hpeer2 ha2
    obtain ⟨c3, hc3, hc3al⟩ := alive_of_keepsDown hk2 hpeer3 ha3
    obtain ⟨b3, hb3, hb3al⟩ := alive_of_keepsDown hk1 hc3 hc3al
    refine ⟨aliveAt_true_iff.mpr ⟨peer1, hpeer1, ha1⟩, aliveAt_true_iff.mpr ⟨b2, hb2, hb2al⟩,
      aliveAt_true_iff.mpr ⟨b3, hb3, hb3al⟩, ?_⟩
    intro hnd
    obtain ⟨d1, hd1, hd1al⟩ := markFirst_dead_at _ i1 peer1 hnd hpeer1
    have hnd1 : ((markFirst peer1.URL false st.serverPool.backends).map Backend.URL).Nodup := by
      rw [markFirst_map_url]
      exact hnd
    obtain ⟨d2, hd2, hd2al⟩ := markFirst_dead_at _ i2 peer2 hnd1 hpeer2
    obtain ⟨e1, he1, he1al⟩ := dead_of_keepsDown hk2 hd1 hd1al
    refine ⟨?_, ?_, ?_⟩
    · intro he
      subst he
      rw [hd1] at hpeer2
      cases hpeer2
      rw [hd1al] at ha2
      exact Bool.noConfusion ha2
    · intro he
      subst he
      rw [he1] at hpeer3
      cases hpeer3
      rw [he1al] at ha3
      exact Bool.noConfusion ha3
    · intro he
      subst he
      rw [hd2] at hpeer3
      cases hpeer3
      rw [hd2al] at ha3
      exact Bool.noConfusion ha3

/-- C3 (amended), at five healthy backends under the default policy: the first
rejection follows dispatches to the backends 1, 2 and 3. -/
theorem failing_request_three_attempts_witness :
    10 ≤ 10 ∧ 3 ≤ healthyCount stateFive.serverPool ∧ Room (policyOf "") 3 stateFive ∧
    ∃ run i1 i2 i3 rest,
      failingRun "" 10 (Call.lb freshContext) stateFive = some run ∧
      run.trace =
        [ Event.dispatched i1 1 0, Event.dispatched i1 1 1, Event.dispatched i1 1 2,
          Event.dispatched i1 1 3, Event.dispatched i2 2 3, Event.dispatched i3 3 3,
          Event.rejected ] ++ rest ∧
      (∀ idx a ρ, Event.dispatched idx a ρ ∈ run.trace → 1 ≤ a ∧ a ≤ 3 ∧ 0 ≤ ρ ∧ ρ ≤ 3) ∧
      (policyOf "" = Policy.roundRobin ∨ policyOf "" = Policy.connectionPerTime →
        stateFive.serverPool.aliveAt i1 = true ∧ stateFive.serverPool.aliveAt i2 = true ∧
        stateFive.serverPool.aliveAt i3 = true ∧
        ((stateFive.serverPool.backends.map Backend.URL).Nodup →
          i1 ≠ i2 ∧ i1 ≠ i3 ∧ i2 ≠ i3)) :=
  ⟨by decide, by decide, by unfold Room; decide,
    failing_request_three_attempts "" stateFive 10 (by decide) (by decide)
      (by unfold Room; decide)⟩

end LoadBalancer
